import Mathlib

/-!
# Verification of the maze program

Shallow embedding of `src/main.rs` (module `maze`): the cell types, the
`Maze` struct, its constructors and validation, the start-reassignment
operation, the `Display` rendering, and the recursive depth-first solver
`solve_from` together with the `Solvable::solve` entry point.

Modelling conventions:
* Rust `Vec<T>` is `List T`; `Vec::get`/`get_mut` chains become `getCell` /
  `setCell` (out-of-range writes are no-ops, matching `get_mut` returning
  `None`).
* Rust `usize` coordinates are `Nat`; the wrapping arithmetic of
  `x.wrapping_sub(1)` and `x + 1` (release-mode overflow) is made explicit
  with `% 2 ^ 64`.
* Rust `String` data is modelled as `List Char` where rendering and text
  parsing are concerned; error `String`s are kept as Lean `String`s with the
  exact `format!` texts.
* The recursion of `solve_from` (which Rust runs on the call stack) is made
  total with an explicit fuel parameter; `Maze.solve` supplies a fuel that is
  proven sufficient (`run_isSome_of_fuel`), so the fueled function computes
  exactly what the Rust recursion computes.
-/

/-- Mirror of `enum FloorType { Floor, Start, Path }` (default: `Floor`). -/
inductive FloorType where
  | Floor
  | Start
  | Path
deriving DecidableEq

/-- Mirror of `enum MazeCell { Wall, Floor(FloorType) }` (default: `Wall`). -/
inductive MazeCell where
  | Wall
  | Floor (f : FloorType)
deriving DecidableEq

/-- Mirror of `FloorType::as_char`. -/
def FloorType.as_char : FloorType → Char
  | FloorType.Floor => '⬛'
  | FloorType.Start => '❌'
  | FloorType.Path => '👣'

/-- Mirror of `MazeCell::as_char`. -/
def MazeCell.as_char : MazeCell → Char
  | MazeCell.Wall => '⬜'
  | MazeCell.Floor f => f.as_char

/-- Mirror of `MazeCell::from_bool`. -/
def MazeCell.from_bool (value : Bool) : MazeCell :=
  if value then MazeCell.Floor FloorType.Floor else MazeCell.Wall

/-- Mirror of `struct Maze`. -/
structure Maze where
  map : List (List MazeCell)
  width : Nat
  height : Nat
  start_x : Nat
  start_y : Nat
  visited : Option (List (List Bool))
deriving DecidableEq

/-- `g.get(y).and_then(|row| row.get(x))` on a two-dimensional vector. -/
def getCell {α : Type} (g : List (List α)) (y x : Nat) : Option α :=
  (g.get? y).bind fun row => row.get? x

/-- `g.get_mut(y).and_then(|row| row.get_mut(x))` followed by `*cell = a`:
writes `a` at row `y`, column `x` when both indices are in range, otherwise
leaves the vector unchanged. -/
def setCell {α : Type} : List (List α) → Nat → Nat → α → List (List α)
  | [], _, _, _ => []
  | row :: rest, 0, x, a => row.set x a :: rest
  | row :: rest, y + 1, x, a => row :: setCell rest y x a

/-- Mirror of `Maze::validate_start` (exact error strings of the source). -/
def Maze.validate_start (map : List (List MazeCell)) (start_x start_y : Nat) :
    Except String Unit :=
  match map.get? start_y with
  | some row_vec =>
    match row_vec.get? start_x with
    | some MazeCell.Wall => Except.error "Starting position must not be on a wall!"
    | some (MazeCell.Floor _) => Except.ok ()
    | none => Except.error "start_x out of bounds!"
  | none => Except.error "start_y out of bounds!"

/-- Mirror of `Vec::resize(width, MazeCell::default())` on one row: truncate
to `w` elements and extend with `Wall` when shorter. -/
def resizeRow (row : List MazeCell) (w : Nat) : List MazeCell :=
  row.take w ++ List.replicate (w - row.length) MazeCell.Wall

/-- Mirror of `Maze::new`: compute the dimensions, reject small mazes, pad
all rows to the common width and validate the start position. -/
def Maze.new (map : List (List MazeCell)) (start_x start_y : Nat) :
    Except String Maze :=
  let height := map.length
  let width := (map.map List.length).foldr Nat.max 0
  if height < 3 ∨ width < 3 then
    Except.error "Maze is too small. Minimum 3x3"
  else
    let map2 := map.map fun row => resizeRow row width
    match Maze.validate_start map2 start_x start_y with
    | Except.error e => Except.error e
    | Except.ok _ =>
      Except.ok { map := map2, width := width, height := height,
                  start_x := start_x, start_y := start_y, visited := none }

/-- Mirror of `Maze::new_from_bool_array`. -/
def Maze.new_from_bool_array (map : List (List Bool)) (start_x start_y : Nat) :
    Except String Maze :=
  Maze.new (map.map fun row => row.map MazeCell.from_bool) start_x start_y

/-- Mirror of `row.chars().map(...).collect::<Result<Vec<_>, _>>()` cell
decoding: `' '` is floor, `'X'` is wall, anything else is an error. -/
def decodeCell (c : Char) : Except String MazeCell :=
  if c = ' ' then Except.ok (MazeCell.Floor FloorType.Floor)
  else if c = 'X' then Except.ok MazeCell.Wall
  else Except.error ("Unknown character '" ++ toString c ++ "' in provided maze data!")

/-- `collect::<Result<Vec<_>, _>>()`: left-to-right traversal stopping at the
first error. -/
def mapE {α β : Type} (f : α → Except String β) : List α → Except String (List β)
  | [] => Except.ok []
  | a :: rest =>
    match f a with
    | Except.error e => Except.error e
    | Except.ok b =>
      match mapE f rest with
      | Except.error e => Except.error e
      | Except.ok bs => Except.ok (b :: bs)

/-- Mirror of `Maze::new_from_str_array`. -/
def Maze.new_from_str_array (map : List (List Char)) (start_x start_y : Nat) :
    Except String Maze :=
  match mapE (fun row => mapE decodeCell row) map with
  | Except.error e => Except.error e
  | Except.ok grid => Maze.new grid start_x start_y

/-- Mirror of `str::split('\n')`: every separator starts a new (possibly
empty) piece; the empty input yields one empty piece. -/
def splitNl : List Char → List (List Char)
  | [] => [[]]
  | c :: rest =>
    if c = '\n' then [] :: splitNl rest
    else
      match splitNl rest with
      | [] => [[c]]
      | h :: t => (c :: h) :: t

/-- Mirror of `Maze::new_from_str`. -/
def Maze.new_from_str (s : List Char) (start_x start_y : Nat) :
    Except String Maze :=
  Maze.new_from_str_array (splitNl s) start_x start_y

/-- Mirror of `Maze::set_start` (validate against the current map, then
replace the start coordinates). -/
def Maze.set_start (m : Maze) (start_x start_y : Nat) : Except String Maze :=
  match Maze.validate_start m.map start_x start_y with
  | Except.error e => Except.error e
  | Except.ok _ => Except.ok { m with start_x := start_x, start_y := start_y }

/-- Mirror of `impl fmt::Display for Maze`: one symbol per cell, the start
position overriding with the start symbol, `'\n'` after every row. -/
def Maze.render (m : Maze) : List Char :=
  (m.map.enum.map fun yrow =>
    (yrow.2.enum.map fun xcell =>
      if xcell.1 = m.start_x ∧ yrow.1 = m.start_y then FloorType.Start.as_char
      else xcell.2.as_char) ++ ['\n']).flatten

/-- `2 ^ 64` (written as a numeral), the modulus of `usize` arithmetic on
the target platform. -/
def USIZE : Nat := 18446744073709551616

/-- `x.wrapping_sub(1)` on `usize`. -/
def wrapSub1 (x : Nat) : Nat := (x + (USIZE - 1)) % USIZE

/-- `x + 1` on `usize` (release-mode wrapping add). -/
def wrapAdd1 (x : Nat) : Nat := (x + 1) % USIZE

/-- The fixed neighbor order of `solve_from`: left, right, up, down. -/
def neighbors (x y : Nat) : List (Nat × Nat) :=
  [(wrapSub1 x, y), (wrapAdd1 x, y), (x, wrapSub1 y), (x, wrapAdd1 y)]

/-- The exact `format!("Starting position ({}, {}) out of bounds", x, y)`. -/
def oobMsg (x y : Nat) : String :=
  "Starting position (" ++ toString x ++ ", " ++ toString y ++ ") out of bounds"

/-- One pending activation of the solver: either an entry into `solve_from`
at `(x, y)`, or the neighbor loop of the activation at `(x, y)` with the
still-untried neighbors `ns`. -/
inductive Call where
  | solve (m : Maze) (x y : Nat)
  | loop (m : Maze) (ns : List (Nat × Nat)) (x y : Nat)

/-- The maze state a call operates on. -/
def Call.maze : Call → Maze
  | Call.solve m _ _ => m
  | Call.loop m _ _ _ => m

/-- `*visited = true` at `(x, y)`. -/
def markVisited (m : Maze) (x y : Nat) : Maze :=
  { m with visited := m.visited.map fun v => setCell v y x true }

/-- `*cell = MazeCell::Floor(FloorType::Path)` at `(x, y)`. -/
def markPath (m : Maze) (x y : Nat) : Maze :=
  { m with map := setCell m.map y x (MazeCell.Floor FloorType.Path) }

/-- Mirror of `Maze::solve_from`, fueled.  A `Call.solve` step performs the
cell/visited lookup (the `Err` branch when either fails), the wall and
visited early returns, the visited marking, and the boundary base case; a
`Call.loop` step tries the next pending neighbor, marking the current cell
`Path` and short-circuiting as soon as one succeeds, re-fetching the current
cell exactly as the source does.  `none` means the fuel ran out (which
`run_isSome_of_fuel` below proves impossible for the fuel `Maze.solve`
supplies). -/
def run : Nat → Call → Option (Maze × Except String Bool)
  | 0, _ => none
  | fuel + 1, Call.solve m x y =>
    match getCell m.map y x, m.visited.bind (fun v => getCell v y x) with
    | some cell, some vis =>
      if cell = MazeCell.Wall then some (m, Except.ok false)
      else if vis then some (m, Except.ok false)
      else if x = 0 ∨ m.width - 1 ≤ x ∨ y = 0 ∨ m.height - 1 ≤ y then
        some (markPath (markVisited m x y) x y, Except.ok true)
      else
        run fuel (Call.loop (markVisited m x y) (neighbors x y) x y)
    | _, _ => some (m, Except.error (oobMsg x y))
  | _fuel + 1, Call.loop m [] _x _y => some (m, Except.ok false)
  | fuel + 1, Call.loop m ((nx, ny) :: rest) x y =>
    match run fuel (Call.solve m nx ny) with
    | none => none
    | some (m', Except.error e) => some (m', Except.error e)
    | some (m', Except.ok true) =>
      match getCell m'.map y x with
      | some _ => some (markPath m' x y, Except.ok true)
      | none => some (m', Except.error (oobMsg x y))
    | some (m', Except.ok false) => run fuel (Call.loop m' rest x y)

/-- The maze with a freshly allocated all-`false` visited mask
(`vec![vec![false; width]; height]`). -/
def solveReady (m : Maze) : Maze :=
  { m with visited := some (List.replicate m.height (List.replicate m.width false)) }

/-- Mirror of `<Maze as Solvable>::solve`: allocate a fresh all-`false`
visited mask of the maze's dimensions and search from the start position. -/
def Maze.solve (m : Maze) : Option (Maze × Except String Bool) :=
  run (6 * m.width * m.height + 1) (Call.solve (solveReady m) m.start_x m.start_y)

/-! ## Basic lemmas about rows and grids -/

theorem get?_set_self {α : Type} (l : List α) (i : Nat) (a : α) (h : i < l.length) :
    (l.set i a).get? i = some a := by
  induction l generalizing i with
  | nil => simp at h
  | cons b t ih =>
    cases i with
    | zero => rfl
    | succ j => simpa using ih j (by simpa using h)

theorem get?_set_ne {α : Type} (l : List α) (i j : Nat) (a : α) (h : i ≠ j) :
    (l.set i a).get? j = l.get? j := by
  induction l generalizing i j with
  | nil => rfl
  | cons b t ih =>
    cases i with
    | zero => cases j with
      | zero => exact absurd rfl h
      | succ k => rfl
    | succ i' => cases j with
      | zero => rfl
      | succ k => simpa using ih i' k (by omega)

theorem get?_some_lt {α : Type} {l : List α} {n : Nat} {a : α}
    (h : l.get? n = some a) : n < l.length := by
  induction l generalizing n with
  | nil => simp at h
  | cons b t ih =>
    cases n with
    | zero => simp
    | succ k => simpa using ih (by simpa using h)

theorem get?_mem' {α : Type} {l : List α} {n : Nat} {a : α}
    (h : l.get? n = some a) : a ∈ l := by
  induction l generalizing n with
  | nil => simp at h
  | cons b t ih =>
    cases n with
    | zero => simp_all
    | succ k => exact List.mem_cons_of_mem _ (ih (by simpa using h))

theorem get?_replicate {α : Type} (a : α) (n i : Nat) :
    (List.replicate n a).get? i = if i < n then some a else none := by
  induction n generalizing i with
  | zero => simp
  | succ k ih =>
    cases i with
    | zero => rw [if_pos (Nat.succ_pos k)]; rfl
    | succ j =>
      show (List.replicate k a).get? j = _
      rw [ih]
      by_cases hj : j < k
      · rw [if_pos hj, if_pos (by omega)]
      · rw [if_neg hj, if_neg (by omega)]

theorem take_of_length_le' {α : Type} {l : List α} {n : Nat}
    (h : l.length ≤ n) : l.take n = l := by
  induction l generalizing n with
  | nil => simp
  | cons b t ih =>
    cases n with
    | zero => simp at h
    | succ k => simpa using ih (by simpa using h)

theorem mem_take' {α : Type} {l : List α} {n : Nat} {a : α}
    (h : a ∈ l.take n) : a ∈ l := by
  induction l generalizing n with
  | nil => simp at h
  | cons b t ih =>
    cases n with
    | zero => simp at h
    | succ k =>
      rcases (List.mem_cons).1 h with h1 | h1
      · exact h1 ▸ List.mem_cons_self _ _
      · exact List.mem_cons_of_mem _ (ih h1)

theorem getCell_nil {α : Type} (y x : Nat) :
    getCell ([] : List (List α)) y x = none := rfl

theorem getCell_cons_zero {α : Type} (row : List α) (rest : List (List α)) (x : Nat) :
    getCell (row :: rest) 0 x = row.get? x := rfl

theorem getCell_cons_succ {α : Type} (row : List α) (rest : List (List α)) (y x : Nat) :
    getCell (row :: rest) (y + 1) x = getCell rest y x := rfl

/-- Updating a cell that exists makes exactly that value readable there. -/
theorem getCell_setCell_self {α : Type} {g : List (List α)} {y x : Nat}
    (h : (getCell g y x).isSome) (a : α) :
    getCell (setCell g y x a) y x = some a := by
  induction g generalizing y with
  | nil => simp [getCell_nil] at h
  | cons row rest ih =>
    cases y with
    | zero =>
      rw [getCell_cons_zero] at h
      rcases Option.isSome_iff_exists.1 h with ⟨c, hc⟩
      exact get?_set_self _ _ _ (get?_some_lt hc)
    | succ y' => exact ih (by rwa [getCell_cons_succ] at h)

/-- Updating one cell leaves every other position unchanged. -/
theorem getCell_setCell_ne {α : Type} (g : List (List α)) (y x y' x' : Nat) (a : α)
    (h : ¬(y' = y ∧ x' = x)) :
    getCell (setCell g y x a) y' x' = getCell g y' x' := by
  induction g generalizing y y' with
  | nil => rfl
  | cons row rest ih =>
    cases y with
    | zero =>
      cases y' with
      | zero =>
        show (row.set x a).get? x' = row.get? x'
        exact get?_set_ne _ _ _ _ fun hx => h ⟨rfl, hx.symm⟩
      | succ k => rfl
    | succ j =>
      cases y' with
      | zero => rfl
      | succ k =>
        show getCell (setCell rest j x a) k x' = getCell rest k x'
        exact ih j k (by omega)

/-- `setCell` never changes the number of rows. -/
theorem setCell_length {α : Type} (g : List (List α)) (y x : Nat) (a : α) :
    (setCell g y x a).length = g.length := by
  induction g generalizing y with
  | nil => rfl
  | cons row rest ih =>
    cases y with
    | zero => simp [setCell]
    | succ j => simp [setCell, ih]

/-- `setCell` never changes any row's length. -/
theorem setCell_rowlen {α : Type} (g : List (List α)) (y x : Nat) (a : α) :
    ∀ i, ((setCell g y x a).get? i).map List.length = (g.get? i).map List.length := by
  induction g generalizing y with
  | nil => intro i; rfl
  | cons row rest ih =>
    intro i
    cases y with
    | zero =>
      cases i with
      | zero => simp [setCell]
      | succ k => rfl
    | succ j =>
      cases i with
      | zero => rfl
      | succ k => simpa [setCell] using ih j k

/-! ## Counting unvisited entries and the visited predicate -/

/-- Number of `false` entries in one visited-mask row. -/
def rowFalse : List Bool → Nat
  | [] => 0
  | b :: t => (if b then 0 else 1) + rowFalse t

/-- Number of `false` entries in a visited mask. -/
def gridFalse : List (List Bool) → Nat
  | [] => 0
  | row :: rest => rowFalse row + gridFalse rest

/-- Number of `false` entries in an optional visited mask. -/
def gridFalseO : Option (List (List Bool)) → Nat
  | none => 0
  | some v => gridFalse v

/-- The visited-mask entry at `c = (x, y)` exists and is `true`. -/
def visitedP (m : Maze) (c : Nat × Nat) : Prop :=
  m.visited.bind (fun v => getCell v c.2 c.1) = some true

theorem rowFalse_set_true {row : List Bool} {x : Nat}
    (h : row.get? x = some false) :
    rowFalse (row.set x true) + 1 = rowFalse row := by
  induction row generalizing x with
  | nil => simp at h
  | cons b t ih =>
    cases x with
    | zero =>
      have hb : b = false := by simpa using h
      subst hb
      simp [rowFalse]
      omega
    | succ j =>
      have := ih (by simpa using h)
      simp only [List.set, rowFalse]
      omega

theorem rowFalse_set_le (row : List Bool) (x : Nat) :
    rowFalse (row.set x true) ≤ rowFalse row := by
  induction row generalizing x with
  | nil => simp [rowFalse]
  | cons b t ih =>
    cases x with
    | zero =>
      cases b <;> simp only [rowFalse, List.set, if_true, if_false] <;> omega
    | succ j =>
      have := ih j
      simp only [List.set, rowFalse]
      omega

theorem gridFalse_setCell_true {v : List (List Bool)} {y x : Nat}
    (h : getCell v y x = some false) :
    gridFalse (setCell v y x true) + 1 = gridFalse v := by
  induction v generalizing y with
  | nil => simp [getCell_nil] at h
  | cons row rest ih =>
    cases y with
    | zero =>
      rw [getCell_cons_zero] at h
      have := rowFalse_set_true h
      simp only [setCell, gridFalse]
      omega
    | succ j =>
      rw [getCell_cons_succ] at h
      have := ih h
      simp only [setCell, gridFalse]
      omega

theorem gridFalse_setCell_le (v : List (List Bool)) (y x : Nat) :
    gridFalse (setCell v y x true) ≤ gridFalse v := by
  induction v generalizing y with
  | nil => simp [setCell]
  | cons row rest ih =>
    cases y with
    | zero =>
      have := rowFalse_set_le row x
      simp only [setCell, gridFalse]
      omega
    | succ j =>
      have := ih j
      simp only [setCell, gridFalse]
      omega

theorem setCell_get_true {v : List (List Bool)} {y x : Nat} (y' x' : Nat)
    (h : getCell v y' x' = some true) :
    getCell (setCell v y x true) y' x' = some true := by
  by_cases hc : y' = y ∧ x' = x
  · obtain ⟨rfl, rfl⟩ := hc
    exact getCell_setCell_self (Option.isSome_iff_exists.2 ⟨_, h⟩) true
  · rw [getCell_setCell_ne _ _ _ _ _ _ hc]
    exact h

/-! ## State preservation across the solver -/

/-- Everything the solver never destroys: the scalar fields, the shape of the
cell matrix, the shape and presence of the visited mask, monotonicity of the
visited marks and of the number of unvisited entries. -/
structure StatePres (m0 m1 : Maze) : Prop where
  width_eq : m1.width = m0.width
  height_eq : m1.height = m0.height
  sx_eq : m1.start_x = m0.start_x
  sy_eq : m1.start_y = m0.start_y
  mlen : m1.map.length = m0.map.length
  mrow : ∀ i, (m1.map.get? i).map List.length = (m0.map.get? i).map List.length
  vlen : m1.visited.map List.length = m0.visited.map List.length
  vrow : ∀ i, (m1.visited.bind fun v => (v.get? i).map List.length) =
              (m0.visited.bind fun v => (v.get? i).map List.length)
  vmono : ∀ c, visitedP m0 c → visitedP m1 c
  cmono : gridFalseO m1.visited ≤ gridFalseO m0.visited

theorem statePres_refl (m : Maze) : StatePres m m :=
  ⟨rfl, rfl, rfl, rfl, rfl, fun _ => rfl, rfl, fun _ => rfl, fun _ h => h, Nat.le_refl _⟩

theorem statePres_trans {a b c : Maze} (h1 : StatePres a b) (h2 : StatePres b c) :
    StatePres a c :=
  ⟨h2.width_eq.trans h1.width_eq, h2.height_eq.trans h1.height_eq,
   h2.sx_eq.trans h1.sx_eq, h2.sy_eq.trans h1.sy_eq,
   h2.mlen.trans h1.mlen, fun i => (h2.mrow i).trans (h1.mrow i),
   h2.vlen.trans h1.vlen, fun i => (h2.vrow i).trans (h1.vrow i),
   fun cc h => h2.vmono cc (h1.vmono cc h), Nat.le_trans h2.cmono h1.cmono⟩

theorem statePres_markVisited (m : Maze) (x y : Nat) :
    StatePres m (markVisited m x y) := by
  cases m with
  | mk mp w h sx sy vis =>
    cases vis with
    | none => exact statePres_refl _
    | some v =>
      refine ⟨rfl, rfl, rfl, rfl, rfl, fun _ => rfl, ?_, ?_, ?_, ?_⟩
      · simpa [markVisited] using setCell_length v y x true
      · intro i
        simpa [markVisited] using setCell_rowlen v y x true i
      · intro c hc
        simp only [visitedP, markVisited, Option.bind] at hc ⊢
        exact setCell_get_true _ _ hc
      · simpa [markVisited, gridFalseO] using gridFalse_setCell_le v y x

theorem statePres_markPath (m : Maze) (x y : Nat) :
    StatePres m (markPath m x y) := by
  refine ⟨rfl, rfl, rfl, rfl, ?_, ?_, rfl, fun _ => rfl, fun _ h => h, Nat.le_refl _⟩
  · exact setCell_length _ _ _ _
  · intro i
    exact setCell_rowlen _ _ _ _ i

/-- Every run of the solver preserves the scalar fields and the shapes, only
adds visited marks, and never increases the number of unvisited entries. -/
theorem run_statePres : ∀ (fuel : Nat) (c : Call) (m' : Maze) (r : Except String Bool),
    run fuel c = some (m', r) → StatePres c.maze m' := by
  intro fuel
  induction fuel with
  | zero =>
    intro c m' r h
    simp [run] at h
  | succ f ih =>
    intro c m' r h
    cases c with
    | solve m x y =>
      show StatePres m m'
      rw [run] at h
      split at h
      · split at h
        · obtain ⟨rfl, rfl⟩ : m = m' ∧ Except.ok false = r := by
            simpa using h
          exact statePres_refl m
        · split at h
          · obtain ⟨rfl, rfl⟩ : m = m' ∧ Except.ok false = r := by
              simpa using h
            exact statePres_refl m
          · split at h
            · obtain ⟨rfl, rfl⟩ :
                  markPath (markVisited m x y) x y = m' ∧ Except.ok true = r := by
                simpa using h
              exact statePres_trans (statePres_markVisited m x y)
                (statePres_markPath (markVisited m x y) x y)
            · exact statePres_trans (statePres_markVisited m x y) (ih _ _ _ h)
      · obtain ⟨rfl, rfl⟩ : m = m' ∧ Except.error (oobMsg x y) = r := by
          simpa using h
        exact statePres_refl m
    | loop m ns x y =>
      show StatePres m m'
      cases ns with
      | nil =>
        rw [run] at h
        obtain ⟨rfl, rfl⟩ : m = m' ∧ Except.ok false = r := by
          simpa using h
        exact statePres_refl m
      | cons n rest =>
        obtain ⟨nx, ny⟩ := n
        rw [run] at h
        split at h
        · exact absurd h (by simp)
        · rename_i m1 e heq
          obtain ⟨rfl, rfl⟩ : m1 = m' ∧ Except.error e = r := by
            simpa using h
          exact ih _ _ _ heq
        · rename_i m1 heq
          split at h
          · obtain ⟨rfl, rfl⟩ : markPath m1 x y = m' ∧ Except.ok true = r := by
              simpa using h
            exact statePres_trans (ih _ _ _ heq) (statePres_markPath m1 x y)
          · obtain ⟨rfl, rfl⟩ : m1 = m' ∧ Except.error (oobMsg x y) = r := by
              simpa using h
            exact ih _ _ _ heq
        · rename_i m1 heq
          exact statePres_trans (ih _ _ _ heq) (ih _ _ _ h)

/-- A search that answers `false` leaves the cell matrix untouched: `Path`
marks are written only on branches that answer `true`. -/
theorem run_false_map_eq : ∀ (fuel : Nat) (c : Call) (m' : Maze),
    run fuel c = some (m', Except.ok false) → m'.map = c.maze.map := by
  intro fuel
  induction fuel with
  | zero =>
    intro c m' h
    simp [run] at h
  | succ f ih =>
    intro c m' h
    cases c with
    | solve m x y =>
      show m'.map = m.map
      rw [run] at h
      split at h
      · split at h
        · obtain rfl : m = m' := by simpa using h
          rfl
        · split at h
          · obtain rfl : m = m' := by simpa using h
            rfl
          · split at h
            · simp at h
            · exact ih _ _ h
      · simp at h
    | loop m ns x y =>
      show m'.map = m.map
      cases ns with
      | nil =>
        rw [run] at h
        obtain rfl : m = m' := by simpa using h
        rfl
      | cons n rest =>
        obtain ⟨nx, ny⟩ := n
        rw [run] at h
        split at h
        · exact absurd h (by simp)
        · simp at h
        · split at h
          · simp at h
          · simp at h
        · rename_i m1 heq
          exact (ih _ _ h).trans (ih _ _ heq)

/-! ## Cell evolution: the only write is floor-to-path -/

/-- Every position is unchanged, or held some floor and now holds the `Path`
floor. -/
def Evolves (g g' : List (List MazeCell)) : Prop :=
  ∀ y x, getCell g' y x = getCell g y x ∨
    ∃ ft, getCell g y x = some (MazeCell.Floor ft) ∧
      getCell g' y x = some (MazeCell.Floor FloorType.Path)

theorem evolves_refl (g : List (List MazeCell)) : Evolves g g :=
  fun _ _ => Or.inl rfl

theorem evolves_trans {g1 g2 g3 : List (List MazeCell)}
    (h12 : Evolves g1 g2) (h23 : Evolves g2 g3) : Evolves g1 g3 := by
  intro y x
  rcases h23 y x with h | ⟨ft, hmid, hnew⟩
  · rcases h12 y x with h' | ⟨ft, hold, hmid⟩
    · exact Or.inl (h.trans h')
    · exact Or.inr ⟨ft, hold, h.trans hmid⟩
  · rcases h12 y x with h' | ⟨ft', hold, hmid'⟩
    · exact Or.inr ⟨ft, h'.symm.trans hmid, hnew⟩
    · exact Or.inr ⟨ft', hold, hnew⟩

theorem evolves_markPath {g : List (List MazeCell)} {y x : Nat}
    (h : ∃ ft, getCell g y x = some (MazeCell.Floor ft)) :
    Evolves g (setCell g y x (MazeCell.Floor FloorType.Path)) := by
  intro y' x'
  by_cases hc : y' = y ∧ x' = x
  · obtain ⟨rfl, rfl⟩ := hc
    obtain ⟨ft, hft⟩ := h
    exact Or.inr ⟨ft, hft,
      getCell_setCell_self (Option.isSome_iff_exists.2 ⟨_, hft⟩) _⟩
  · exact Or.inl (getCell_setCell_ne _ _ _ _ _ _ hc)

/-- Precondition for the evolution lemma: a pending neighbor loop belongs to
an activation whose own cell is a floor cell. -/
def evHyp : Call → Prop
  | Call.solve _ _ _ => True
  | Call.loop m _ x y => ∃ ft, getCell m.map y x = some (MazeCell.Floor ft)

/-- The solver only ever rewrites floor cells to `Path` floors. -/
theorem run_evolves : ∀ (fuel : Nat) (c : Call) (m' : Maze) (r : Except String Bool),
    evHyp c → run fuel c = some (m', r) → Evolves c.maze.map m'.map := by
  intro fuel
  induction fuel with
  | zero =>
    intro c m' r _ h
    simp [run] at h
  | succ f ih =>
    intro c m' r hev h
    cases c with
    | solve m x y =>
      show Evolves m.map m'.map
      rw [run] at h
      split at h
      · rename_i cell vis hcell hvis
        split at h
        · obtain ⟨rfl, -⟩ : m = m' ∧ Except.ok false = r := by simpa using h
          exact evolves_refl _
        · rename_i hwall
          split at h
          · obtain ⟨rfl, -⟩ : m = m' ∧ Except.ok false = r := by simpa using h
            exact evolves_refl _
          · split at h
            · obtain ⟨rfl, -⟩ :
                  markPath (markVisited m x y) x y = m' ∧ Except.ok true = r := by
                simpa using h
              refine evolves_markPath ?_
              cases cell with
              | Wall => exact absurd rfl hwall
              | Floor ft => exact ⟨ft, hcell⟩
            · refine ih (Call.loop (markVisited m x y) (neighbors x y) x y) _ _ ?_ h
              show ∃ ft, getCell m.map y x = some (MazeCell.Floor ft)
              cases cell with
              | Wall => exact absurd rfl hwall
              | Floor ft => exact ⟨ft, hcell⟩
      · obtain ⟨rfl, -⟩ : m = m' ∧ Except.error (oobMsg x y) = r := by simpa using h
        exact evolves_refl _
    | loop m ns x y =>
      show Evolves m.map m'.map
      cases ns with
      | nil =>
        rw [run] at h
        obtain ⟨rfl, -⟩ : m = m' ∧ Except.ok false = r := by simpa using h
        exact evolves_refl _
      | cons n rest =>
        obtain ⟨nx, ny⟩ := n
        rw [run] at h
        obtain ⟨ft0, hft0⟩ : ∃ ft, getCell m.map y x = some (MazeCell.Floor ft) := hev
        split at h
        · exact absurd h (by simp)
        · rename_i m1 e heq
          obtain ⟨rfl, -⟩ : m1 = m' ∧ Except.error e = r := by simpa using h
          exact ih (Call.solve m nx ny) _ _ trivial heq
        · rename_i m1 heq
          have hev1 : Evolves m.map m1.map := ih (Call.solve m nx ny) _ _ trivial heq
          have hfloor1 : ∃ ft, getCell m1.map y x = some (MazeCell.Floor ft) := by
            rcases hev1 y x with he | ⟨ft', -, hnew⟩
            · exact ⟨ft0, he.trans hft0⟩
            · exact ⟨FloorType.Path, hnew⟩
          split at h
          · obtain ⟨rfl, -⟩ : markPath m1 x y = m' ∧ Except.ok true = r := by
              simpa using h
            exact evolves_trans hev1 (evolves_markPath hfloor1)
          · obtain ⟨rfl, -⟩ : m1 = m' ∧ Except.error (oobMsg x y) = r := by
              simpa using h
            exact hev1
        · rename_i m1 heq
          have hev1 : Evolves m.map m1.map := ih (Call.solve m nx ny) _ _ trivial heq
          have hfloor1 : ∃ ft, getCell m1.map y x = some (MazeCell.Floor ft) := by
            rcases hev1 y x with he | ⟨ft', -, hnew⟩
            · exact ⟨ft0, he.trans hft0⟩
            · exact ⟨FloorType.Path, hnew⟩
          exact evolves_trans hev1 (ih (Call.loop m1 rest x y) _ _ hfloor1 h)

/-! ## Fuel sufficiency: the search always terminates -/

/-- Fuel that certainly suffices for a call: six steps per still-unvisited
entry (one `solve_from` entry plus up to four neighbor-loop steps and an
extra margin) plus the pending loop length. -/
def fuelNeed : Call → Nat
  | Call.solve m _ _ => 6 * gridFalseO m.visited + 1
  | Call.loop m ns _ _ => 6 * gridFalseO m.visited + ns.length + 1

/-- The interleaved fuel never runs out when at least `fuelNeed` is supplied:
each `solve_from` entry that recurses first marks a fresh cell visited, so
the number of unvisited entries strictly decreases. -/
theorem run_isSome_of_fuel : ∀ (fuel : Nat) (c : Call),
    fuelNeed c ≤ fuel → (run fuel c).isSome := by
  intro fuel
  induction fuel with
  | zero =>
    intro c hf
    exact absurd hf (by cases c <;> simp [fuelNeed])
  | succ f ih =>
    intro c hf
    cases c with
    | solve m x y =>
      rw [run]
      split
      · rename_i cell vis hcell hvis
        split
        · rfl
        · split
          · rfl
          · split
            · rfl
            · rename_i hnv hb
              refine ih _ ?_
              obtain ⟨v, hv⟩ : ∃ v, m.visited = some v := by
                cases hmv : m.visited with
                | none => rw [hmv] at hvis; simp [Option.bind] at hvis
                | some v => exact ⟨v, rfl⟩
              rw [hv] at hvis
              have hvis' : getCell v y x = some false := by
                have : vis = false := by
                  cases vis with
                  | false => rfl
                  | true => exact absurd rfl hnv
                simpa [this] using hvis
              have hdec := gridFalse_setCell_true hvis'
              have hfu : 6 * gridFalse v + 1 ≤ f + 1 := by
                simpa [fuelNeed, hv, gridFalseO] using hf
              show 6 * gridFalseO (markVisited m x y).visited +
                  (neighbors x y).length + 1 ≤ f
              have hmv : (markVisited m x y).visited = some (setCell v y x true) := by
                simp [markVisited, hv]
              rw [hmv]
              show 6 * gridFalse (setCell v y x true) + 4 + 1 ≤ f
              omega
      · rfl
    | loop m ns x y =>
      cases ns with
      | nil => rw [run]; rfl
      | cons n rest =>
        obtain ⟨nx, ny⟩ := n
        rw [run]
        have hfs : fuelNeed (Call.solve m nx ny) ≤ f := by
          simp only [fuelNeed] at hf ⊢
          simp only [List.length_cons] at hf
          omega
        split
        · rename_i hchild
          have := ih (Call.solve m nx ny) hfs
          rw [hchild] at this
          simp at this
        · rfl
        · split
          · rfl
          · rfl
        · rename_i m1 hchild
          refine ih _ ?_
          have hsp := run_statePres f (Call.solve m nx ny) m1 (Except.ok false) hchild
          have hc := hsp.cmono
          show 6 * gridFalseO m1.visited + rest.length + 1 ≤ f
          simp only [fuelNeed, List.length_cons] at hf
          simp only [Call.maze] at hc
          omega

/-! ## Wrapping arithmetic and rectangular invariants -/

theorem wrapSub1_eq {x : Nat} (h1 : 1 ≤ x) (h2 : x ≤ USIZE) :
    wrapSub1 x = x - 1 := by
  unfold wrapSub1 USIZE at *
  omega

theorem wrapAdd1_eq {x : Nat} (h : x + 1 < USIZE) : wrapAdd1 x = x + 1 := by
  unfold wrapAdd1 USIZE at *
  omega

/-- In the interior of a `usize`-sized grid the computed neighbor list is
plain `±1` arithmetic: left, right, up, down. -/
theorem neighbors_interior {x y w h : Nat} (hw : w ≤ USIZE) (hh : h ≤ USIZE)
    (hb : ¬(x = 0 ∨ w - 1 ≤ x ∨ y = 0 ∨ h - 1 ≤ y)) :
    neighbors x y = [(x - 1, y), (x + 1, y), (x, y - 1), (x, y + 1)] := by
  push_neg at hb
  obtain ⟨hx0, hxw, hy0, hyh⟩ := hb
  unfold neighbors
  rw [wrapSub1_eq (by omega) (by omega), wrapAdd1_eq (by omega)]
  rw [wrapSub1_eq (by omega) (by omega), wrapAdd1_eq (by omega)]

/-- A rectangular two-dimensional vector: `h` rows, each of length `w`. -/
def RectG {α : Type} (g : List (List α)) (w h : Nat) : Prop :=
  g.length = h ∧ ∀ row ∈ g, row.length = w

theorem rect_get {α : Type} {g : List (List α)} {w h : Nat} (hr : RectG g w h)
    {y x : Nat} (hy : y < h) (hx : x < w) : ∃ a, getCell g y x = some a := by
  obtain ⟨hlen, hrow⟩ := hr
  have hylt : y < g.length := hlen ▸ hy
  obtain ⟨row, hrowy⟩ : ∃ row, g.get? y = some row := by
    cases hg : g.get? y with
    | none => exact absurd (List.get?_eq_none.1 hg) (by omega)
    | some row => exact ⟨row, rfl⟩
  have hxlt : x < row.length := by rw [hrow row (get?_mem' hrowy)]; exact hx
  obtain ⟨a, ha⟩ : ∃ a, row.get? x = some a := by
    cases hrx : row.get? x with
    | none => exact absurd (List.get?_eq_none.1 hrx) (by omega)
    | some a => exact ⟨a, rfl⟩
  refine ⟨a, ?_⟩
  unfold getCell
  rw [hrowy]
  exact ha

theorem rect_bounds {α : Type} {g : List (List α)} {w h : Nat} (hr : RectG g w h)
    {y x : Nat} {a : α} (hg : getCell g y x = some a) : y < h ∧ x < w := by
  obtain ⟨hlen, hrow⟩ := hr
  unfold getCell at hg
  cases hrowy : g.get? y with
  | none => rw [hrowy] at hg; simp at hg
  | some row =>
    rw [hrowy] at hg
    simp only [Option.bind] at hg
    have h1 := get?_some_lt hrowy
    have h2 := get?_some_lt hg
    exact ⟨hlen ▸ h1, hrow row (get?_mem' hrowy) ▸ h2⟩

/-- Solver invariant: map and visited mask are rectangular of the declared
dimensions, and the dimensions are `usize`-representable. -/
def SInv (m : Maze) : Prop :=
  RectG m.map m.width m.height ∧
  (∃ v, m.visited = some v ∧ RectG v m.width m.height) ∧
  m.width ≤ USIZE ∧ m.height ≤ USIZE

/-- `StatePres` carries the solver invariant forward. -/
theorem statePres_SInv {m0 m1 : Maze} (hi : SInv m0) (hp : StatePres m0 m1) :
    SInv m1 := by
  obtain ⟨⟨hml, hmr⟩, ⟨v0, hv0, hv0l, hv0r⟩, hwu, hhu⟩ := hi
  refine ⟨⟨?_, ?_⟩, ?_, ?_, ?_⟩
  · rw [hp.mlen, hp.height_eq]
    exact hml
  · intro row hrowmem
    rw [hp.width_eq]
    obtain ⟨i, hi⟩ := List.mem_iff_get?.1 hrowmem
    have := hp.mrow i
    rw [hi] at this
    cases h0 : m0.map.get? i with
    | none => rw [h0] at this; simp at this
    | some row0 =>
      rw [h0] at this
      simp only [Option.map_some'] at this
      have : row.length = row0.length := by simpa using this
      rw [this]
      exact hmr row0 (get?_mem' h0)
  · have hvl := hp.vlen
    rw [hv0] at hvl
    cases hv1 : m1.visited with
    | none => rw [hv1] at hvl; simp at hvl
    | some v1 =>
      rw [hv1] at hvl
      simp only [Option.map_some'] at hvl
      refine ⟨v1, rfl, ?_, ?_⟩
      · rw [hp.height_eq]
        have hlen1 : v1.length = v0.length := by simpa using hvl
        rw [hlen1]
        exact hv0l
      · intro row hrowmem
        rw [hp.width_eq]
        obtain ⟨i, hi⟩ := List.mem_iff_get?.1 hrowmem
        have hvr := hp.vrow i
        rw [hv0, hv1] at hvr
        simp only [Option.bind] at hvr
        rw [hi] at hvr
        cases h0 : v0.get? i with
        | none => rw [h0] at hvr; simp at hvr
        | some row0 =>
          rw [h0] at hvr
          simp only [Option.map_some'] at hvr
          have : row.length = row0.length := by simpa using hvr
          rw [this]
          exact hv0r row0 (get?_mem' h0)
  · rw [hp.width_eq]; exact hwu
  · rw [hp.height_eq]; exact hhu

/-- Hypotheses under which a call cannot produce the out-of-bounds error:
the solver invariant and in-bounds coordinates (for a loop also all pending
neighbor coordinates). -/
def NEhyp : Call → Prop
  | Call.solve m x y => SInv m ∧ x < m.width ∧ y < m.height
  | Call.loop m ns x y => SInv m ∧ x < m.width ∧ y < m.height ∧
      ∀ n ∈ ns, n.1 < m.width ∧ n.2 < m.height

/-- The guarded error branches of `solve_from` are unreachable: under the
solver invariant every lookup the search performs succeeds, so the result is
always `Ok`. -/
theorem run_no_error : ∀ (fuel : Nat) (c : Call) (m' : Maze) (r : Except String Bool),
    NEhyp c → run fuel c = some (m', r) → ∃ b, r = Except.ok b := by
  intro fuel
  induction fuel with
  | zero =>
    intro c m' r _ h
    simp [run] at h
  | succ f ih =>
    intro c m' r hne h
    cases c with
    | solve m x y =>
      obtain ⟨hinv, hx, hy⟩ := hne
      rw [run] at h
      split at h
      · split at h
        · obtain ⟨-, rfl⟩ : m = m' ∧ Except.ok false = r := by simpa using h
          exact ⟨false, rfl⟩
        · split at h
          · obtain ⟨-, rfl⟩ : m = m' ∧ Except.ok false = r := by simpa using h
            exact ⟨false, rfl⟩
          · split at h
            · obtain ⟨-, rfl⟩ :
                  markPath (markVisited m x y) x y = m' ∧ Except.ok true = r := by
                simpa using h
              exact ⟨true, rfl⟩
            · rename_i hb
              refine ih (Call.loop (markVisited m x y) (neighbors x y) x y) _ _
                ⟨statePres_SInv hinv (statePres_markVisited m x y), hx, hy, ?_⟩ h
              show ∀ n ∈ neighbors x y, n.1 < m.width ∧ n.2 < m.height
              have hb' := hb
              push_neg at hb'
              obtain ⟨hx0, hxw, hy0, hyh⟩ := hb'
              rw [neighbors_interior hinv.2.2.1 hinv.2.2.2 hb]
              intro n hn
              simp only [List.mem_cons, List.not_mem_nil, or_false] at hn
              rcases hn with rfl | rfl | rfl | rfl <;>
                exact ⟨by simp; omega, by simp; omega⟩
      · rename_i hno
        obtain ⟨cell, hcell⟩ := rect_get hinv.1 hy hx
        obtain ⟨v, hv, hrv⟩ := hinv.2.1
        obtain ⟨vis, hvis⟩ := rect_get hrv hy hx
        exact absurd (hno cell vis hcell (by rw [hv]; exact hvis)) (by simp)
    | loop m ns x y =>
      obtain ⟨hinv, hx, hy, hns⟩ := hne
      cases ns with
      | nil =>
        rw [run] at h
        obtain ⟨-, rfl⟩ : m = m' ∧ Except.ok false = r := by simpa using h
        exact ⟨false, rfl⟩
      | cons n rest =>
        obtain ⟨nx, ny⟩ := n
        have hn0 := hns (nx, ny) (List.mem_cons_self _ _)
        rw [run] at h
        split at h
        · exact absurd h (by simp)
        · rename_i m1 e heq
          obtain ⟨b, hb⟩ :=
            ih (Call.solve m nx ny) _ _ ⟨hinv, hn0.1, hn0.2⟩ heq
          exact absurd hb (by simp)
        · rename_i m1 heq
          have hsp := run_statePres f (Call.solve m nx ny) m1 _ heq
          have hinv1 : SInv m1 := statePres_SInv hinv hsp
          have hw1 : m1.width = m.width := hsp.width_eq
          have hh1 : m1.height = m.height := hsp.height_eq
          split at h
          · obtain ⟨-, rfl⟩ : markPath m1 x y = m' ∧ Except.ok true = r := by
              simpa using h
            exact ⟨true, rfl⟩
          · rename_i hre
            obtain ⟨cell, hcell⟩ := rect_get hinv1.1 (hh1 ▸ hy) (hw1 ▸ hx)
            rw [hre] at hcell
            simp at hcell
        · rename_i m1 heq
          have hsp := run_statePres f (Call.solve m nx ny) m1 _ heq
          have hinv1 : SInv m1 := statePres_SInv hinv hsp
          have hw1 : m1.width = m.width := hsp.width_eq
          have hh1 : m1.height = m.height := hsp.height_eq
          refine ih (Call.loop m1 rest x y) _ _
            ⟨hinv1, hw1 ▸ hx, hh1 ▸ hy, ?_⟩ h
          intro n hn
          have := hns n (List.mem_cons_of_mem _ hn)
          exact ⟨hw1 ▸ this.1, hh1 ▸ this.2⟩

/-! ## Termination and absence of errors for `Maze.solve` -/

theorem rowFalse_replicate (w : Nat) : rowFalse (List.replicate w false) = w := by
  induction w with
  | zero => rfl
  | succ k ih =>
    show (if false then 0 else 1) + rowFalse (List.replicate k false) = k + 1
    rw [ih, if_neg (by simp)]
    omega

theorem gridFalse_replicate (h w : Nat) :
    gridFalse (List.replicate h (List.replicate w false)) = h * w := by
  induction h with
  | zero => rw [Nat.zero_mul]; rfl
  | succ k ih =>
    show rowFalse (List.replicate w false) +
        gridFalse (List.replicate k (List.replicate w false)) = (k + 1) * w
    rw [rowFalse_replicate, ih, Nat.succ_mul]
    omega

/-- The search always terminates: the fuel `Maze.solve` supplies is enough
because the visited mask grows with every recursive entry and is bounded by
`width * height`. -/
theorem solve_isSome (m : Maze) : (Maze.solve m).isSome := by
  unfold Maze.solve
  refine run_isSome_of_fuel _ _ ?_
  show 6 * gridFalseO (solveReady m).visited + 1 ≤ 6 * m.width * m.height + 1
  have hv : (solveReady m).visited =
      some (List.replicate m.height (List.replicate m.width false)) := rfl
  rw [hv]
  show 6 * gridFalse (List.replicate m.height (List.replicate m.width false)) + 1 ≤ _
  rw [gridFalse_replicate, Nat.mul_comm m.height m.width, ← Nat.mul_assoc]

theorem getCell_replicate_false (hh ww y x : Nat) :
    getCell (List.replicate hh (List.replicate ww false)) y x ≠ some true := by
  unfold getCell
  rw [get?_replicate]
  by_cases hy : y < hh
  · rw [if_pos hy]
    show (List.replicate ww false).get? x ≠ some true
    rw [get?_replicate]
    by_cases hx : x < ww
    · rw [if_pos hx]; simp
    · rw [if_neg hx]; simp
  · rw [if_neg hy]; simp

/-- Right after allocating the fresh mask nothing is visited. -/
theorem solveReady_not_visited (m : Maze) (c : Nat × Nat) :
    ¬ visitedP (solveReady m) c := by
  unfold visitedP solveReady
  exact getCell_replicate_false _ _ _ _

/-- Whether an optional cell is a floor cell (of any kind). -/
def isFloorB : Option MazeCell → Bool
  | some (MazeCell.Floor _) => true
  | _ => false

/-- A validly constructed maze: rectangular map of the declared dimensions,
both at least 3 and `usize`-representable, and a start position that lies on
a floor cell inside the grid.  `Maze.new_valid` below shows every maze the
constructors return satisfies this. -/
def Valid (m : Maze) : Prop :=
  m.map.length = m.height ∧ (∀ row ∈ m.map, row.length = m.width) ∧
  3 ≤ m.width ∧ 3 ≤ m.height ∧ m.width ≤ USIZE ∧ m.height ≤ USIZE ∧
  m.start_x < m.width ∧ m.start_y < m.height ∧
  isFloorB (getCell m.map m.start_y m.start_x) = true

theorem valid_SInv_solveReady {m : Maze} (hv : Valid m) : SInv (solveReady m) := by
  obtain ⟨h1, h2, h3, h4, h5, h6, h7, h8, h9⟩ := hv
  refine ⟨⟨h1, h2⟩, ⟨List.replicate m.height (List.replicate m.width false), rfl,
    by simp [solveReady], ?_⟩, h5, h6⟩
  intro row hr
  rw [List.eq_of_mem_replicate hr]
  simp [solveReady]

/-- For a valid maze, `solve` terminates with an `Ok` answer: the defensive
`OutOfBounds` error branch is unreachable. -/
theorem solve_ok {m : Maze} (hv : Valid m) :
    ∃ m' b, Maze.solve m = some (m', Except.ok b) := by
  obtain ⟨⟨m', r⟩, hr⟩ := Option.isSome_iff_exists.1 (solve_isSome m)
  obtain ⟨b, rfl⟩ := run_no_error _
    (Call.solve (solveReady m) m.start_x m.start_y) _ _
    ⟨valid_SInv_solveReady hv, hv.2.2.2.2.2.2.1, hv.2.2.2.2.2.2.2.1⟩ hr
  exact ⟨m', b, hr⟩

/-! ## Constructor characterization -/

/-- The width computation of `Maze::new`. -/
def maxLen (rows : List (List MazeCell)) : Nat :=
  (rows.map List.length).foldr Nat.max 0

theorem le_maxLen {rows : List (List MazeCell)} {row : List MazeCell}
    (h : row ∈ rows) : row.length ≤ maxLen rows := by
  induction rows with
  | nil => simp at h
  | cons r rs ih =>
    rcases List.mem_cons.1 h with rfl | h'
    · exact Nat.le_max_left _ _
    · exact Nat.le_trans (ih h') (Nat.le_max_right _ _)

theorem maxLen_attained {rows : List (List MazeCell)} (h : rows ≠ []) :
    ∃ row ∈ rows, row.length = maxLen rows := by
  induction rows with
  | nil => exact absurd rfl h
  | cons r rs ih =>
    cases rs with
    | nil =>
      refine ⟨r, List.mem_cons_self _ _, ?_⟩
      show r.length = max r.length 0
      simp
    | cons r2 rs2 =>
      obtain ⟨row, hmem, hlen⟩ := ih (by simp)
      rcases Nat.le_total r.length (maxLen (r2 :: rs2)) with hle | hle
      · refine ⟨row, List.mem_cons_of_mem _ hmem, ?_⟩
        show row.length = max r.length (maxLen (r2 :: rs2))
        rw [max_eq_right hle]
        exact hlen
      · refine ⟨r, List.mem_cons_self _ _, ?_⟩
        show r.length = max r.length (maxLen (r2 :: rs2))
        rw [max_eq_left hle]

theorem maxLen_le {rows : List (List MazeCell)} {b : Nat}
    (h : ∀ row ∈ rows, row.length ≤ b) : maxLen rows ≤ b ∨ maxLen rows = 0 := by
  induction rows with
  | nil => exact Or.inr rfl
  | cons r rs ih =>
    rcases ih (fun row hr => h row (List.mem_cons_of_mem _ hr)) with h' | h'
    all_goals refine Or.inl ?_
    all_goals have hr0 := h r (List.mem_cons_self _ _)
    · show max r.length (maxLen rs) ≤ b
      exact max_le hr0 h'
    · show max r.length (maxLen rs) ≤ b
      exact max_le hr0 (by omega)

theorem resizeRow_length {row : List MazeCell} {w : Nat} (h : row.length ≤ w) :
    (resizeRow row w).length = w := by
  unfold resizeRow
  rw [List.length_append, List.length_take, List.length_replicate]
  omega

theorem resizeRow_eq_append {row : List MazeCell} {w : Nat} (h : row.length ≤ w) :
    resizeRow row w = row ++ List.replicate (w - row.length) MazeCell.Wall := by
  unfold resizeRow
  rw [take_of_length_le' h]

/-- Start validation succeeds exactly when the start cell is a floor cell. -/
theorem validate_start_ok_iff (g : List (List MazeCell)) (sx sy : Nat) :
    Maze.validate_start g sx sy = Except.ok () ↔
      isFloorB (getCell g sy sx) = true := by
  cases hy : g.get? sy with
  | none =>
    have hy' : g[sy]? = none := by simpa using hy
    simp [Maze.validate_start, getCell, hy', isFloorB]
  | some row =>
    have hy' : g[sy]? = some row := by simpa using hy
    cases hx : row.get? sx with
    | none =>
      have hx' : row[sx]? = none := by simpa using hx
      simp [Maze.validate_start, getCell, hy', hx', isFloorB]
    | some cell =>
      have hx' : row[sx]? = some cell := by simpa using hx
      cases cell with
      | Wall => simp [Maze.validate_start, getCell, hy', hx', isFloorB]
      | Floor f => simp [Maze.validate_start, getCell, hy', hx', isFloorB]

/-- Start validation on a wall cell produces exactly the `StartOnWall`
message of the source. -/
theorem validate_start_wall {g : List (List MazeCell)} {sx sy : Nat}
    (h : getCell g sy sx = some MazeCell.Wall) :
    Maze.validate_start g sx sy =
      Except.error "Starting position must not be on a wall!" := by
  cases hy : g.get? sy with
  | none =>
    have hy' : g[sy]? = none := by simpa using hy
    simp [getCell, hy'] at h
  | some row =>
    have hy' : g[sy]? = some row := by simpa using hy
    cases hx : row.get? sx with
    | none =>
      have hx' : row[sx]? = none := by simpa using hx
      simp [getCell, hy', hx'] at h
    | some cell =>
      have hx' : row[sx]? = some cell := by simpa using hx
      have hc : cell = MazeCell.Wall := by simpa [getCell, hy', hx'] using h
      subst hc
      simp [Maze.validate_start, hy', hx']

/-- Full characterization of a successful `Maze::new`. -/
theorem Maze.new_ok {rows : List (List MazeCell)} {sx sy : Nat} {m : Maze}
    (h : Maze.new rows sx sy = Except.ok m) :
    m.map = rows.map (fun row => resizeRow row (maxLen rows)) ∧
    m.width = maxLen rows ∧ m.height = rows.length ∧
    m.start_x = sx ∧ m.start_y = sy ∧ m.visited = none ∧
    3 ≤ rows.length ∧ 3 ≤ maxLen rows ∧
    Maze.validate_start m.map sx sy = Except.ok () := by
  unfold Maze.new at h
  simp only [] at h
  split at h
  · simp at h
  · rename_i hsize
    split at h
    · simp at h
    · rename_i u hval
      obtain rfl : Maze.mk (rows.map (fun row => resizeRow row (maxLen rows)))
          (maxLen rows) rows.length sx sy none = m := by
        simpa [maxLen] using h
      have hsize' : ¬(rows.length < 3 ∨ maxLen rows < 3) := hsize
      push_neg at hsize'
      refine ⟨rfl, rfl, rfl, rfl, rfl, rfl, by omega, by omega, ?_⟩
      cases u
      simpa [maxLen] using hval

theorem isFloorB_some {o : Option MazeCell} (h : isFloorB o = true) :
    ∃ f, o = some (MazeCell.Floor f) := by
  cases o with
  | none => simp [isFloorB] at h
  | some cell =>
    cases cell with
    | Wall => simp [isFloorB] at h
    | Floor f => exact ⟨f, rfl⟩

/-- Every successful construction (from input whose sizes fit in `usize`,
which every real `Vec` satisfies) yields a valid maze. -/
theorem Maze.new_valid {rows : List (List MazeCell)} {sx sy : Nat} {m : Maze}
    (hb : rows.length ≤ USIZE) (hr : ∀ row ∈ rows, row.length ≤ USIZE)
    (h : Maze.new rows sx sy = Except.ok m) : Valid m := by
  obtain ⟨hmap, hw, hh, hsx, hsy, hvis, h3h, h3w, hval⟩ := Maze.new_ok h
  have hrect : RectG m.map m.width m.height := by
    constructor
    · rw [hmap, List.length_map, hh]
    · intro row hrow
      rw [hmap] at hrow
      obtain ⟨row0, hrow0, rfl⟩ := List.mem_map.1 hrow
      rw [hw]
      exact resizeRow_length (le_maxLen hrow0)
  have hfloor : isFloorB (getCell m.map m.start_y m.start_x) = true := by
    rw [hsx, hsy]
    exact (validate_start_ok_iff _ _ _).1 hval
  obtain ⟨f, hf⟩ := isFloorB_some hfloor
  have hbounds := rect_bounds hrect hf
  have hwu : m.width ≤ USIZE := by
    rcases maxLen_le hr with h' | h' <;> omega
  exact ⟨hrect.1, hrect.2, by omega, by omega, hwu, by omega,
    hbounds.2, hbounds.1, hfloor⟩

/-! ## Concrete mazes used to exercise the theorems -/

/-- Scenario A of the spec: `new_from_bool_array [[T,F,T],[F,T,F],[T,T,F]] 1 1`
(identical to the grid the text input of scenario C parses to). -/
def mazeA : Maze :=
  Maze.mk
    [[MazeCell.Floor FloorType.Floor, MazeCell.Wall, MazeCell.Floor FloorType.Floor],
     [MazeCell.Wall, MazeCell.Floor FloorType.Floor, MazeCell.Wall],
     [MazeCell.Floor FloorType.Floor, MazeCell.Floor FloorType.Floor, MazeCell.Wall]]
    3 3 1 1 none

/-- The state `Maze.solve mazeA` produces: route `(1,1) → (1,2)`, both marked
`Path` (the start cell included), the answer `Ok(true)`. -/
def mazeASolved : Maze :=
  Maze.mk
    [[MazeCell.Floor FloorType.Floor, MazeCell.Wall, MazeCell.Floor FloorType.Floor],
     [MazeCell.Wall, MazeCell.Floor FloorType.Path, MazeCell.Wall],
     [MazeCell.Floor FloorType.Floor, MazeCell.Floor FloorType.Path, MazeCell.Wall]]
    3 3 1 1 (some [[false, false, false], [false, true, false], [false, true, false]])

/-- A wall-enclosed single floor cell: solving it fails (`Ok(false)`). -/
def mazeB : Maze :=
  Maze.mk
    [[MazeCell.Wall, MazeCell.Wall, MazeCell.Wall],
     [MazeCell.Wall, MazeCell.Floor FloorType.Floor, MazeCell.Wall],
     [MazeCell.Wall, MazeCell.Wall, MazeCell.Wall]]
    3 3 1 1 none

/-- The state `Maze.solve mazeB` produces: only the start marked visited, the
map untouched, the answer `Ok(false)`. -/
def mazeBSolved : Maze :=
  Maze.mk
    [[MazeCell.Wall, MazeCell.Wall, MazeCell.Wall],
     [MazeCell.Wall, MazeCell.Floor FloorType.Floor, MazeCell.Wall],
     [MazeCell.Wall, MazeCell.Wall, MazeCell.Wall]]
    3 3 1 1 (some [[false, false, false], [false, true, false], [false, false, false]])

/-- `mazeA` with a stale visited mask, to exercise determinism. -/
def mazeAStale : Maze :=
  Maze.mk mazeA.map 3 3 1 1 (some [[true]])

/-- `mazeA` after rebinding the start to `(0, 2)`. -/
def mazeASet : Maze :=
  Maze.mk mazeA.map 3 3 0 2 none

/-! ## Claim theorems: solver-level claims -/

/-- Claim C3: for every validly constructed maze, `solve()` never returns the
`OutOfBounds` error — the search only ever resolves in-bounds coordinates, so
the guarded error branch is unreachable and the result is always `Ok`. -/
theorem claim_C3 (m : Maze) (hv : Valid m) :
    ∃ m' b, Maze.solve m = some (m', Except.ok b) :=
  solve_ok hv

theorem claim_C3_witness : ∃ m' b, Maze.solve mazeA = some (m', Except.ok b) :=
  claim_C3 mazeA (by unfold Valid; decide)

/-- Claim C8: `solve()` always terminates: the fueled search never runs out
of fuel because the visited mask grows strictly on each recursive entry and
is bounded by `width * height`. -/
theorem claim_C8 (m : Maze) : (Maze.solve m).isSome :=
  solve_isSome m

/-- Claim C7: `solve()` is deterministic — two mazes with identical map,
dimensions and start position (whatever their stale visited masks hold)
solve to the identical result, because the visited mask is rebuilt and the
neighbor order is fixed. -/
theorem claim_C7 (m1 m2 : Maze) (hmap : m1.map = m2.map)
    (hw : m1.width = m2.width) (hh : m1.height = m2.height)
    (hsx : m1.start_x = m2.start_x) (hsy : m1.start_y = m2.start_y) :
    Maze.solve m1 = Maze.solve m2 := by
  cases m1 with
  | mk mp1 w1 h1 sx1 sy1 v1 =>
    cases m2 with
    | mk mp2 w2 h2 sx2 sy2 v2 =>
      simp only [] at hmap hw hh hsx hsy
      subst hmap
      subst hw
      subst hh
      subst hsx
      subst hsy
      rfl

theorem claim_C7_witness : Maze.solve mazeA = Maze.solve mazeAStale :=
  claim_C7 mazeA mazeAStale rfl rfl rfl rfl rfl

/-- Claim C9: when `solve()` answers `Ok(false)` the cell matrix is exactly
the one it started from — no `Path` mark and no other cell mutation. -/
theorem claim_C9 (m m' : Maze) (h : Maze.solve m = some (m', Except.ok false)) :
    m'.map = m.map := by
  unfold Maze.solve at h
  exact run_false_map_eq _ _ _ h

theorem claim_C9_witness : mazeBSolved.map = mazeB.map :=
  claim_C9 mazeB mazeBSolved (by rfl)

/-- Claim C10: `solve()` preserves the structural state: width, height and
the start coordinates never change, and the only cell mutation is turning
some floor cell into the `Path` floor (walls stay walls, floors stay
floors). -/
theorem claim_C10 (m m' : Maze) (r : Except String Bool)
    (h : Maze.solve m = some (m', r)) :
    m'.width = m.width ∧ m'.height = m.height ∧
    m'.start_x = m.start_x ∧ m'.start_y = m.start_y ∧
    ∀ y x, getCell m'.map y x = getCell m.map y x ∨
      ∃ ft, getCell m.map y x = some (MazeCell.Floor ft) ∧
        getCell m'.map y x = some (MazeCell.Floor FloorType.Path) := by
  unfold Maze.solve at h
  have hsp := run_statePres _ _ _ _ h
  have hev := run_evolves _
    (Call.solve (solveReady m) m.start_x m.start_y) _ _ trivial h
  exact ⟨hsp.width_eq, hsp.height_eq, hsp.sx_eq, hsp.sy_eq, hev⟩

theorem claim_C10_witness :
    mazeASolved.width = mazeA.width ∧ mazeASolved.height = mazeA.height ∧
    mazeASolved.start_x = mazeA.start_x ∧ mazeASolved.start_y = mazeA.start_y ∧
    ∀ y x, getCell mazeASolved.map y x = getCell mazeA.map y x ∨
      ∃ ft, getCell mazeA.map y x = some (MazeCell.Floor ft) ∧
        getCell mazeASolved.map y x = some (MazeCell.Floor FloorType.Path) :=
  claim_C10 mazeA mazeASolved (Except.ok true) (by rfl)

/-! ## Claim theorems: construction-level claims -/

/-- Claim C4: `set_start` revalidates `(x, y)` against the current map; on
success the returned grid carries the new start with map, dimensions and
visited mask untouched; on failure it returns exactly the validation error
(in particular `StartOnWall` when the target cell is a wall) and no grid —
validation happens before any mutation, so no partial change is visible. -/
theorem claim_C4 (m : Maze) (x y : Nat) :
    (∀ m', Maze.set_start m x y = Except.ok m' →
      m'.start_x = x ∧ m'.start_y = y ∧ m'.map = m.map ∧
      m'.width = m.width ∧ m'.height = m.height ∧ m'.visited = m.visited ∧
      Maze.validate_start m.map x y = Except.ok ()) ∧
    (∀ e, Maze.set_start m x y = Except.error e →
      Maze.validate_start m.map x y = Except.error e) ∧
    (getCell m.map y x = some MazeCell.Wall →
      Maze.set_start m x y =
        Except.error "Starting position must not be on a wall!") := by
  refine ⟨?_, ?_, ?_⟩
  · intro m' h
    unfold Maze.set_start at h
    split at h
    · simp at h
    · rename_i u hval
      obtain rfl : { m with start_x := x, start_y := y } = m' := by
        simpa using h
      cases u
      exact ⟨rfl, rfl, rfl, rfl, rfl, rfl, hval⟩
  · intro e h
    unfold Maze.set_start at h
    split at h
    · rename_i e' hval
      obtain rfl : e' = e := by simpa using h
      exact hval
    · simp at h
  · intro hwall
    unfold Maze.set_start
    rw [validate_start_wall hwall]

theorem claim_C4_witness :
    mazeASet.start_x = 0 ∧ mazeASet.start_y = 2 ∧ mazeASet.map = mazeA.map ∧
    mazeASet.width = mazeA.width ∧ mazeASet.height = mazeA.height ∧
    mazeASet.visited = mazeA.visited ∧
    Maze.validate_start mazeA.map 0 2 = Except.ok () :=
  (claim_C4 mazeA 0 2).1 mazeASet (by rfl)

/-- Helper for C6: mapping two functions that agree on the list's members. -/
theorem map_congr_mem {α β : Type} {l : List α} {f g : α → β}
    (h : ∀ a ∈ l, f a = g a) : l.map f = l.map g := by
  induction l with
  | nil => rfl
  | cons a t ih =>
    show f a :: t.map f = g a :: t.map g
    rw [h a (List.mem_cons_self _ _), ih (fun b hb => h b (List.mem_cons_of_mem _ hb))]

/-- Claim C6: on a successful construction the grid's width is the maximum
input row length (attained by some row, an upper bound for all), every input
row is padded on the right with `Wall` up to that width, and every row of
the constructed grid has exactly `width` cells. -/
theorem claim_C6 (rows : List (List MazeCell)) (sx sy : Nat) (m : Maze)
    (h : Maze.new rows sx sy = Except.ok m) :
    (∀ row ∈ rows, row.length ≤ m.width) ∧
    (∃ row ∈ rows, row.length = m.width) ∧
    m.map = rows.map
      (fun row => row ++ List.replicate (m.width - row.length) MazeCell.Wall) ∧
    (∀ row ∈ m.map, row.length = m.width) := by
  obtain ⟨hmap, hw, hh, -, -, -, h3h, h3w, -⟩ := Maze.new_ok h
  have hne : rows ≠ [] := by
    intro e
    rw [e] at h3h
    simp at h3h
  refine ⟨?_, ?_, ?_, ?_⟩
  · intro row hrow
    rw [hw]
    exact le_maxLen hrow
  · obtain ⟨row, hmem, hlen⟩ := maxLen_attained hne
    exact ⟨row, hmem, by rw [hw]; exact hlen⟩
  · rw [hmap, hw]
    refine map_congr_mem ?_
    intro row hrow
    exact resizeRow_eq_append (le_maxLen hrow)
  · intro row hrow
    rw [hmap] at hrow
    obtain ⟨row0, hrow0, rfl⟩ := List.mem_map.1 hrow
    rw [hw]
    exact resizeRow_length (le_maxLen hrow0)

/-- Input rows with a short second row, exercising the padding. -/
def rowsC6 : List (List MazeCell) :=
  [[MazeCell.Floor FloorType.Floor, MazeCell.Floor FloorType.Floor,
    MazeCell.Floor FloorType.Floor],
   [MazeCell.Floor FloorType.Floor, MazeCell.Floor FloorType.Floor],
   [MazeCell.Floor FloorType.Floor, MazeCell.Floor FloorType.Floor,
    MazeCell.Floor FloorType.Floor]]

/-- What `Maze.new rowsC6 1 1` constructs: the short row is padded with a
wall on the right. -/
def mazeC6 : Maze :=
  Maze.mk
    [[MazeCell.Floor FloorType.Floor, MazeCell.Floor FloorType.Floor,
      MazeCell.Floor FloorType.Floor],
     [MazeCell.Floor FloorType.Floor, MazeCell.Floor FloorType.Floor,
      MazeCell.Wall],
     [MazeCell.Floor FloorType.Floor, MazeCell.Floor FloorType.Floor,
      MazeCell.Floor FloorType.Floor]]
    3 3 1 1 none

theorem claim_C6_witness :
    (∀ row ∈ rowsC6, row.length ≤ mazeC6.width) ∧
    (∃ row ∈ rowsC6, row.length = mazeC6.width) ∧
    mazeC6.map = rowsC6.map
      (fun row => row ++ List.replicate (mazeC6.width - row.length) MazeCell.Wall) ∧
    (∀ row ∈ mazeC6.map, row.length = mazeC6.width) :=
  claim_C6 rowsC6 1 1 mazeC6 (by rfl)

/-! ## Rendering: the path symbol on fresh grids -/

/-- No cell of the matrix is the `Path` floor. -/
def NoPathCells (g : List (List MazeCell)) : Prop :=
  ∀ row ∈ g, ∀ cell ∈ row, cell ≠ MazeCell.Floor FloorType.Path

theorem mem_of_mem_enumFrom {α : Type} {l : List α} {n : Nat} {p : Nat × α}
    (h : p ∈ l.enumFrom n) : p.2 ∈ l := by
  induction l generalizing n with
  | nil => simp at h
  | cons a t ih =>
    rw [List.enumFrom] at h
    rcases List.mem_cons.1 h with rfl | h'
    · exact List.mem_cons_self _ _
    · exact List.mem_cons_of_mem _ (ih h')

theorem mem_of_mem_enum {α : Type} {l : List α} {p : Nat × α}
    (h : p ∈ l.enum) : p.2 ∈ l :=
  mem_of_mem_enumFrom h

/-- A path-free matrix renders without the path symbol: the only sources of
characters are the newline, the start override and the cells' own symbols,
none of which is `'👣'` here. -/
theorem render_no_path {m : Maze} (h : NoPathCells m.map) : '👣' ∉ m.render := by
  intro hmem
  unfold Maze.render at hmem
  rw [List.mem_flatten] at hmem
  obtain ⟨piece, hpiece, hc⟩ := hmem
  rw [List.mem_map] at hpiece
  obtain ⟨yrow, hyrow, rfl⟩ := hpiece
  rcases List.mem_append.1 hc with hc | hc
  · rw [List.mem_map] at hc
    obtain ⟨xcell, hxcell, hceq⟩ := hc
    by_cases hif : xcell.1 = m.start_x ∧ yrow.1 = m.start_y
    · rw [if_pos hif] at hceq
      exact absurd hceq (by decide)
    · rw [if_neg hif] at hceq
      have hpath : xcell.2 = MazeCell.Floor FloorType.Path := by
        cases hxc : xcell.2 with
        | Wall =>
          rw [hxc] at hceq
          exact absurd hceq (by decide)
        | Floor f =>
          rw [hxc] at hceq
          cases f with
          | Floor => exact absurd hceq (by decide)
          | Start => exact absurd hceq (by decide)
          | Path => rfl
      exact h yrow.2 (mem_of_mem_enum hyrow) xcell.2 (mem_of_mem_enum hxcell) hpath
  · simp at hc

theorem mapE_mem {α β : Type} {f : α → Except String β} :
    ∀ {l : List α} {l' : List β}, mapE f l = Except.ok l' →
      ∀ b ∈ l', ∃ a ∈ l, f a = Except.ok b := by
  intro l
  induction l with
  | nil =>
    intro l' h b hb
    obtain rfl : [] = l' := by simpa [mapE] using h
    simp at hb
  | cons a t ih =>
    intro l' h b hb
    unfold mapE at h
    split at h
    · simp at h
    · rename_i b0 hb0
      split at h
      · simp at h
      · rename_i bs hbs
        obtain rfl : b0 :: bs = l' := by simpa using h
        rcases List.mem_cons.1 hb with rfl | hb'
        · exact ⟨a, List.mem_cons_self _ _, hb0⟩
        · obtain ⟨a', ha', hfa⟩ := ih hbs b hb'
          exact ⟨a', List.mem_cons_of_mem _ ha', hfa⟩

theorem decodeCell_no_path {c : Char} {cell : MazeCell}
    (h : decodeCell c = Except.ok cell) : cell ≠ MazeCell.Floor FloorType.Path := by
  unfold decodeCell at h
  split at h
  · obtain rfl : MazeCell.Floor FloorType.Floor = cell := by simpa using h
    decide
  · split at h
    · obtain rfl : MazeCell.Wall = cell := by simpa using h
      decide
    · simp at h

theorem from_bool_no_path (b : Bool) :
    MazeCell.from_bool b ≠ MazeCell.Floor FloorType.Path := by
  cases b <;> decide

/-- Padding preserves path-freeness of the input rows. -/
theorem noPath_new {rows : List (List MazeCell)} {sx sy : Nat} {m : Maze}
    (hnp : ∀ row ∈ rows, ∀ cell ∈ row, cell ≠ MazeCell.Floor FloorType.Path)
    (h : Maze.new rows sx sy = Except.ok m) : NoPathCells m.map := by
  obtain ⟨hmap, -, -, -, -, -, -, -, -⟩ := Maze.new_ok h
  intro row hrow cell hcell
  rw [hmap] at hrow
  obtain ⟨row0, hrow0, rfl⟩ := List.mem_map.1 hrow
  unfold resizeRow at hcell
  rcases List.mem_append.1 hcell with hc | hc
  · exact hnp row0 hrow0 cell (mem_take' hc)
  · rw [List.eq_of_mem_replicate hc]
    decide

theorem noPath_new_from_bool {bmap : List (List Bool)} {sx sy : Nat} {m : Maze}
    (h : Maze.new_from_bool_array bmap sx sy = Except.ok m) : NoPathCells m.map := by
  unfold Maze.new_from_bool_array at h
  refine noPath_new ?_ h
  intro row hrow cell hcell
  obtain ⟨row0, hrow0, rfl⟩ := List.mem_map.1 hrow
  obtain ⟨b, hb, rfl⟩ := List.mem_map.1 hcell
  exact from_bool_no_path b

theorem noPath_new_from_str_array {smap : List (List Char)} {sx sy : Nat} {m : Maze}
    (h : Maze.new_from_str_array smap sx sy = Except.ok m) : NoPathCells m.map := by
  unfold Maze.new_from_str_array at h
  split at h
  · simp at h
  · rename_i grid hgrid
    refine noPath_new ?_ h
    intro row hrow cell hcell
    obtain ⟨srow, hsrow, hdec⟩ := mapE_mem hgrid row hrow
    obtain ⟨c, hcmem, hc⟩ := mapE_mem hdec cell hcell
    exact decodeCell_no_path hc

/-- A cell matrix that already contains a `Path` floor; `Maze::new` accepts
it unchanged. -/
def rowsPath : List (List MazeCell) :=
  [[MazeCell.Wall, MazeCell.Wall, MazeCell.Wall],
   [MazeCell.Wall, MazeCell.Floor FloorType.Floor, MazeCell.Floor FloorType.Path],
   [MazeCell.Wall, MazeCell.Wall, MazeCell.Wall]]

/-- The maze `Maze.new rowsPath 1 1` constructs. -/
def mazePath : Maze := Maze.mk rowsPath 3 3 1 1 none

/-- Claim C5 counterexample: the claim quantifies over every input accepted
by any of the constructors, but the primary cell-matrix constructor accepts
a matrix that already holds a `Path` cell, and rendering that freshly
constructed, unsolved grid emits the path symbol `'👣'`. -/
theorem claim_C5_counterexample :
    Maze.new rowsPath 1 1 = Except.ok mazePath ∧ '👣' ∈ mazePath.render := by
  constructor
  · rfl
  · decide

/-- Claim C5 (amended): rendering a freshly constructed, unsolved grid never
emits the path symbol for the boolean-matrix, text-row and multi-line-text
constructors; for the raw cell-matrix constructor the same holds provided
the input matrix contains no `Path` cell (that constructor accepts such
cells, which is what the counterexample exhibits). -/
theorem claim_C5 :
    (∀ (bmap : List (List Bool)) (sx sy : Nat) (m : Maze),
      Maze.new_from_bool_array bmap sx sy = Except.ok m → '👣' ∉ m.render) ∧
    (∀ (smap : List (List Char)) (sx sy : Nat) (m : Maze),
      Maze.new_from_str_array smap sx sy = Except.ok m → '👣' ∉ m.render) ∧
    (∀ (s : List Char) (sx sy : Nat) (m : Maze),
      Maze.new_from_str s sx sy = Except.ok m → '👣' ∉ m.render) ∧
    (∀ (rows : List (List MazeCell)) (sx sy : Nat) (m : Maze),
      (∀ row ∈ rows, ∀ cell ∈ row, cell ≠ MazeCell.Floor FloorType.Path) →
      Maze.new rows sx sy = Except.ok m → '👣' ∉ m.render) := by
  refine ⟨?_, ?_, ?_, ?_⟩
  · intro bmap sx sy m h
    exact render_no_path (noPath_new_from_bool h)
  · intro smap sx sy m h
    exact render_no_path (noPath_new_from_str_array h)
  · intro s sx sy m h
    exact render_no_path (noPath_new_from_str_array h)
  · intro rows sx sy m hnp h
    exact render_no_path (noPath_new hnp h)

theorem claim_C5_witness : '👣' ∉ mazeA.render :=
  claim_C5.1 [[true, false, true], [false, true, false], [true, true, false]]
    1 1 mazeA (by rfl)

/-! ## Escape routes: the graph-level reading of the search -/

/-- The boundary test of the solver, as a predicate on a coordinate pair. -/
def OnBoundary (w h : Nat) (c : Nat × Nat) : Prop :=
  c.1 = 0 ∨ w - 1 ≤ c.1 ∨ c.2 = 0 ∨ h - 1 ≤ c.2

/-- One step between four-adjacent grid coordinates.  A left or up step is
witnessed by a `+ 1` on the other side, so no truncated subtraction is
involved. -/
def Adj (c d : Nat × Nat) : Prop :=
  (c.1 = d.1 + 1 ∧ c.2 = d.2) ∨ (d.1 = c.1 + 1 ∧ c.2 = d.2) ∨
  (c.1 = d.1 ∧ c.2 = d.2 + 1) ∨ (c.1 = d.1 ∧ d.2 = c.2 + 1)

/-- A floor cell (of any kind) at `c = (x, y)`. -/
def FloorAt (g : List (List MazeCell)) (c : Nat × Nat) : Prop :=
  ∃ f, getCell g c.2 c.1 = some (MazeCell.Floor f)

/-- An escape route from `c` to the boundary through floor cells, avoiding
the cells in `V`: either `c` itself is a floor cell the solver's boundary
test accepts, or `c` is an interior floor cell adjacent to a cell from which
a route avoiding `V ∪ {c}` exists.  The avoided set grows along the route,
so a route never revisits its own cells; `V` instantiates to the solver's
visited set (and to the empty set for plain reachability). -/
inductive RouteTo (g : List (List MazeCell)) (w h : Nat) :
    (Nat × Nat → Prop) → Nat × Nat → List (Nat × Nat) → Prop where
  | boundary {V : Nat × Nat → Prop} {c : Nat × Nat} :
      ¬ V c → FloorAt g c → OnBoundary w h c → RouteTo g w h V c [c]
  | step {V : Nat × Nat → Prop} {c d : Nat × Nat} {p : List (Nat × Nat)} :
      ¬ V c → FloorAt g c → ¬ OnBoundary w h c → Adj c d →
      RouteTo g w h (fun e => V e ∨ e = c) d p →
      RouteTo g w h V c (c :: p)

theorem routeTo_mono {g : List (List MazeCell)} {w h : Nat}
    {V V' : Nat × Nat → Prop} {c : Nat × Nat} {p : List (Nat × Nat)}
    (hsub : ∀ e, V' e → V e) (hr : RouteTo g w h V c p) :
    RouteTo g w h V' c p := by
  induction hr generalizing V' with
  | boundary hnv hf hob =>
    exact RouteTo.boundary (fun hv' => hnv (hsub _ hv')) hf hob
  | step hnv hf hnob hadj _ ih =>
    exact RouteTo.step (fun hv' => hnv (hsub _ hv')) hf hnob hadj
      (ih (fun e he => he.elim (fun h1 => Or.inl (hsub e h1)) Or.inr))

theorem routeTo_congr {g : List (List MazeCell)} {w h : Nat}
    {V V' : Nat × Nat → Prop} {c : Nat × Nat} {p : List (Nat × Nat)}
    (hiff : ∀ e, V e ↔ V' e) (hr : RouteTo g w h V c p) :
    RouteTo g w h V' c p :=
  routeTo_mono (fun e he => (hiff e).2 he) hr

theorem routeTo_avoids {g : List (List MazeCell)} {w h : Nat}
    {V : Nat × Nat → Prop} {c : Nat × Nat} {p : List (Nat × Nat)}
    (hr : RouteTo g w h V c p) : ∀ e ∈ p, ¬ V e := by
  induction hr with
  | boundary hnv hf hob =>
    intro e he
    rw [List.mem_singleton] at he
    exact he ▸ hnv
  | step hnv hf hnob hadj hsub ih =>
    intro e he
    rcases List.mem_cons.1 he with rfl | he'
    · exact hnv
    · exact fun hv => ih e he' (Or.inl hv)

theorem routeTo_head {g : List (List MazeCell)} {w h : Nat}
    {V : Nat × Nat → Prop} {c : Nat × Nat} {p : List (Nat × Nat)}
    (hr : RouteTo g w h V c p) : p.head? = some c := by
  cases hr with
  | boundary hnv hf hob => rfl
  | step hnv hf hnob hadj hsub => rfl

theorem routeTo_chain {g : List (List MazeCell)} {w h : Nat}
    {V : Nat × Nat → Prop} {c : Nat × Nat} {p : List (Nat × Nat)}
    (hr : RouteTo g w h V c p) : List.Chain' Adj p := by
  induction hr with
  | boundary hnv hf hob => simp
  | step hnv hf hnob hadj hsub ih =>
    rename_i V c d p
    refine List.chain'_cons'.2 ⟨?_, ih⟩
    intro b hb
    have := routeTo_head hsub
    rw [this] at hb
    obtain rfl : d = b := by simpa using hb
    exact hadj

theorem routeTo_nodup {g : List (List MazeCell)} {w h : Nat}
    {V : Nat × Nat → Prop} {c : Nat × Nat} {p : List (Nat × Nat)}
    (hr : RouteTo g w h V c p) : p.Nodup := by
  induction hr with
  | boundary hnv hf hob => simp
  | step hnv hf hnob hadj hsub ih =>
    rename_i V c d p
    refine List.nodup_cons.2 ⟨?_, ih⟩
    intro hmem
    exact routeTo_avoids hsub c hmem (Or.inr rfl)

theorem routeTo_floors {g : List (List MazeCell)} {w h : Nat}
    {V : Nat × Nat → Prop} {c : Nat × Nat} {p : List (Nat × Nat)}
    (hr : RouteTo g w h V c p) : ∀ e ∈ p, FloorAt g e := by
  induction hr with
  | boundary hnv hf hob =>
    intro e he
    rw [List.mem_singleton] at he
    exact he ▸ hf
  | step hnv hf hnob hadj hsub ih =>
    intro e he
    rcases List.mem_cons.1 he with rfl | he'
    · exact hf
    · exact ih e he'

theorem routeTo_last {g : List (List MazeCell)} {w h : Nat}
    {V : Nat × Nat → Prop} {c : Nat × Nat} {p : List (Nat × Nat)}
    (hr : RouteTo g w h V c p) :
    ∃ l, p.getLast? = some l ∧ OnBoundary w h l := by
  induction hr with
  | boundary hnv hf hob => exact ⟨_, rfl, hob⟩
  | step hnv hf hnob hadj hsub ih =>
    rename_i V c d p
    obtain ⟨l, hl, hob⟩ := ih
    refine ⟨l, ?_, hob⟩
    cases p with
    | nil => simp at hl
    | cons q qs => exact hl

/-- Inserting a cell that has no escape route into the avoided set destroys
no other cell's route. -/
theorem routeTo_avoid_insert {g : List (List MazeCell)} {w h : Nat}
    {V : Nat × Nat → Prop} {c dd : Nat × Nat} {p : List (Nat × Nat)}
    (hr : RouteTo g w h V c p) (hdead : ∀ q, ¬ RouteTo g w h V dd q) :
    RouteTo g w h (fun e => V e ∨ e = dd) c p := by
  induction hr generalizing dd with
  | boundary hnv hf hob =>
    rename_i V c
    refine RouteTo.boundary ?_ hf hob
    rintro (hv | rfl)
    · exact hnv hv
    · exact hdead _ (RouteTo.boundary hnv hf hob)
  | step hnv hf hnob hadj hsub ih =>
    rename_i V c d p
    have hcd : c ≠ dd := by
      rintro rfl
      exact hdead _ (RouteTo.step hnv hf hnob hadj hsub)
    have hdead' : ∀ q, ¬ RouteTo g w h (fun e => V e ∨ e = c) dd q := by
      intro q hq
      exact hdead q (routeTo_mono (fun e he => Or.inl he) hq)
    refine RouteTo.step ?_ hf hnob hadj ?_
    · rintro (hv | rfl)
      · exact hnv hv
      · exact hcd rfl
    · refine routeTo_congr ?_ (ih hdead')
      intro e
      constructor
      · rintro ((hv | rfl) | rfl)
        · exact Or.inl (Or.inl hv)
        · exact Or.inr rfl
        · exact Or.inl (Or.inr rfl)
      · rintro ((hv | rfl) | rfl)
        · exact Or.inl (Or.inl hv)
        · exact Or.inr rfl
        · exact Or.inl (Or.inr rfl)

/-! ## Helper lemmas for the main solver/route correspondence -/

theorem visitedP_false_at {m : Maze} {x y : Nat} {v : List (List Bool)}
    (hv : m.visited = some v) (hvis : getCell v y x = some false) :
    ¬ visitedP m (x, y) := by
  intro hP
  unfold visitedP at hP
  rw [hv] at hP
  have hP' : getCell v y x = some true := hP
  rw [hvis] at hP'
  simp at hP'

theorem visitedP_markVisited {m : Maze} {x y : Nat} {v : List (List Bool)}
    (hv : m.visited = some v) (hvis : getCell v y x = some false) :
    ∀ c, visitedP (markVisited m x y) c ↔ (visitedP m c ∨ c = (x, y)) := by
  intro c
  obtain ⟨cx, cy⟩ := c
  unfold visitedP markVisited
  rw [hv]
  show getCell (setCell v y x true) cy cx = some true ↔
      (getCell v cy cx = some true ∨ (cx, cy) = (x, y))
  by_cases hc : cy = y ∧ cx = x
  · obtain ⟨rfl, rfl⟩ := hc
    rw [getCell_setCell_self (Option.isSome_iff_exists.2 ⟨_, hvis⟩) true]
    simp
  · rw [getCell_setCell_ne v y x cy cx true hc]
    constructor
    · exact Or.inl
    · rintro (h1 | h1)
      · exact h1
      · obtain ⟨h2, h3⟩ : cx = x ∧ cy = y := by simpa using h1
        exact absurd ⟨h3, h2⟩ hc

theorem not_routeTo_wall {g : List (List MazeCell)} {w h : Nat}
    {V : Nat × Nat → Prop} {c : Nat × Nat}
    (hwall : getCell g c.2 c.1 = some MazeCell.Wall) :
    ∀ p, ¬ RouteTo g w h V c p := by
  intro p hr
  have hf : FloorAt g c := by
    cases hr with
    | boundary hnv hf hob => exact hf
    | step hnv hf hnob hadj hsub => exact hf
  obtain ⟨f, hf'⟩ := hf
  rw [hwall] at hf'
  simp at hf'

theorem not_routeTo_visited {g : List (List MazeCell)} {w h : Nat}
    {V : Nat × Nat → Prop} {c : Nat × Nat} (hvp : V c) :
    ∀ p, ¬ RouteTo g w h V c p := by
  intro p hr
  cases hr with
  | boundary hnv hf hob => exact hnv hvp
  | step hnv hf hnob hadj hsub => exact hnv hvp

/-- In the interior, every `Adj`-neighbor is one of the four computed
neighbors. -/
theorem adj_mem_neighbors {x y w h : Nat} {d : Nat × Nat}
    (hw : w ≤ USIZE) (hh : h ≤ USIZE)
    (hb : ¬(x = 0 ∨ w - 1 ≤ x ∨ y = 0 ∨ h - 1 ≤ y))
    (hadj : Adj (x, y) d) : d ∈ neighbors x y := by
  rw [neighbors_interior hw hh hb]
  have hb' := hb
  push_neg at hb'
  obtain ⟨hx0, hxw, hy0, hyh⟩ := hb'
  obtain ⟨dx, dy⟩ := d
  simp only [List.mem_cons, List.not_mem_nil, or_false, Prod.mk.injEq]
  unfold Adj at hadj
  simp only [] at hadj
  rcases hadj with ⟨h1, h2⟩ | ⟨h1, h2⟩ | ⟨h1, h2⟩ | ⟨h1, h2⟩ <;> omega

/-- The deadness a `false` answer certifies: for a `solve_from` entry, no
escape route from its cell; for a neighbor loop, none from any pending
neighbor. -/
def dlDead : Call → Prop
  | Call.solve m x y =>
      ∀ p, ¬ RouteTo m.map m.width m.height (visitedP m) (x, y) p
  | Call.loop m ns _x _y =>
      ∀ n ∈ ns, ∀ p, ¬ RouteTo m.map m.width m.height (visitedP m) n p

/-- Completeness of the search: a call that answers `false` (i) destroys no
escape route that avoided the cells already visited at entry, and (ii)
certifies that no escape route avoiding those cells exists from its own
cell (resp. from any pending neighbor). -/
theorem run_complete : ∀ (fuel : Nat) (c : Call) (m' : Maze),
    NEhyp c → run fuel c = some (m', Except.ok false) →
    (∀ cc p, RouteTo c.maze.map c.maze.width c.maze.height (visitedP c.maze) cc p →
      RouteTo c.maze.map c.maze.width c.maze.height (visitedP m') cc p) ∧
    dlDead c := by
  intro fuel
  induction fuel with
  | zero =>
    intro c m' _ h
    simp [run] at h
  | succ f ih =>
    intro c m' hne h
    cases c with
    | solve m x y =>
      obtain ⟨hinv, hx, hy⟩ := hne
      show (∀ cc p, RouteTo m.map m.width m.height (visitedP m) cc p →
          RouteTo m.map m.width m.height (visitedP m') cc p) ∧
        ∀ p, ¬ RouteTo m.map m.width m.height (visitedP m) (x, y) p
      rw [run] at h
      split at h
      · rename_i cell vis hcell hvis
        split at h
        · rename_i hwall
          obtain rfl : m = m' := by simpa using h
          exact ⟨fun cc p hr => hr, not_routeTo_wall (hwall ▸ hcell)⟩
        · rename_i hwall
          split at h
          · rename_i hvtrue
            obtain rfl : m = m' := by simpa using h
            have hvp : visitedP m (x, y) := by
              unfold visitedP
              rw [← hvtrue]
              exact hvis
            exact ⟨fun cc p hr => hr, not_routeTo_visited hvp⟩
          · rename_i hvfalse
            split at h
            · simp at h
            · rename_i hb
              obtain ⟨v, hv⟩ : ∃ v, m.visited = some v := by
                cases hmv : m.visited with
                | none => rw [hmv] at hvis; simp [Option.bind] at hvis
                | some v => exact ⟨v, rfl⟩
              have hvisv : getCell v y x = some false := by
                have hfalse : vis = false := by
                  cases vis with
                  | false => rfl
                  | true => exact absurd rfl hvfalse
                rw [hv] at hvis
                have hvis' : getCell v y x = some vis := hvis
                rw [hfalse] at hvis'
                exact hvis'
              have hmkv := visitedP_markVisited hv hvisv
              have hnb : ∀ n ∈ neighbors x y, n.1 < m.width ∧ n.2 < m.height := by
                have hb' := hb
                push_neg at hb'
                obtain ⟨hx0, hxw, hy0, hyh⟩ := hb'
                rw [neighbors_interior hinv.2.2.1 hinv.2.2.2 hb]
                intro n hn
                simp only [List.mem_cons, List.not_mem_nil, or_false] at hn
                rcases hn with rfl | rfl | rfl | rfl <;>
                  exact ⟨by simp; omega, by simp; omega⟩
              have hIH := ih (Call.loop (markVisited m x y) (neighbors x y) x y) m'
                ⟨statePres_SInv hinv (statePres_markVisited m x y), hx, hy, hnb⟩ h
              have hIH' : (∀ cc p,
                  RouteTo m.map m.width m.height (visitedP (markVisited m x y)) cc p →
                  RouteTo m.map m.width m.height (visitedP m') cc p) ∧
                  ∀ n ∈ neighbors x y, ∀ p,
                    ¬ RouteTo m.map m.width m.height
                      (visitedP (markVisited m x y)) n p := hIH
              have hdead : ∀ p, ¬ RouteTo m.map m.width m.height (visitedP m) (x, y) p := by
                intro p hr
                cases hr with
                | boundary hnv hf hob => exact hb hob
                | step hnv hf hnob hadj hsub =>
                  rename_i d p'
                  have hd : d ∈ neighbors x y :=
                    adj_mem_neighbors hinv.2.2.1 hinv.2.2.2 hb hadj
                  have hsub' : RouteTo m.map m.width m.height
                      (visitedP (markVisited m x y)) d p' :=
                    routeTo_congr (fun e => (hmkv e).symm) hsub
                  exact hIH'.2 d hd p' hsub'
              refine ⟨?_, hdead⟩
              intro cc p hr
              have h1 := routeTo_avoid_insert hr hdead
              exact hIH'.1 cc p (routeTo_congr (fun e => (hmkv e).symm) h1)
      · simp at h
    | loop m ns x y =>
      obtain ⟨hinv, hx, hy, hns⟩ := hne
      show (∀ cc p, RouteTo m.map m.width m.height (visitedP m) cc p →
          RouteTo m.map m.width m.height (visitedP m') cc p) ∧
        ∀ n ∈ ns, ∀ p, ¬ RouteTo m.map m.width m.height (visitedP m) n p
      cases ns with
      | nil =>
        rw [run] at h
        obtain rfl : m = m' := by simpa using h
        exact ⟨fun cc p hr => hr, by simp⟩
      | cons n rest =>
        obtain ⟨nx, ny⟩ := n
        have hn0 := hns (nx, ny) (List.mem_cons_self _ _)
        rw [run] at h
        split at h
        · exact absurd h (by simp)
        · simp at h
        · split at h
          · simp at h
          · simp at h
        · rename_i m1 heq
          have hchild := ih (Call.solve m nx ny) m1 ⟨hinv, hn0.1, hn0.2⟩ heq
          have hchild' : (∀ cc p,
              RouteTo m.map m.width m.height (visitedP m) cc p →
              RouteTo m.map m.width m.height (visitedP m1) cc p) ∧
              ∀ p, ¬ RouteTo m.map m.width m.height (visitedP m) (nx, ny) p := hchild
          have hm1map : m1.map = m.map := run_false_map_eq f (Call.solve m nx ny) m1 heq
          have hsp := run_statePres f (Call.solve m nx ny) m1 _ heq
          have hw1 : m1.width = m.width := hsp.width_eq
          have hh1 : m1.height = m.height := hsp.height_eq
          have hrest := ih (Call.loop m1 rest x y) m'
            ⟨statePres_SInv hinv hsp, hw1 ▸ hx, hh1 ▸ hy,
             fun n hn => ⟨hw1 ▸ (hns n (List.mem_cons_of_mem _ hn)).1,
                          hh1 ▸ (hns n (List.mem_cons_of_mem _ hn)).2⟩⟩ h
          have hrest' : (∀ cc p,
              RouteTo m1.map m1.width m1.height (visitedP m1) cc p →
              RouteTo m1.map m1.width m1.height (visitedP m') cc p) ∧
              ∀ n' ∈ rest, ∀ p,
                ¬ RouteTo m1.map m1.width m1.height (visitedP m1) n' p := hrest
          rw [hm1map, hw1, hh1] at hrest'
          refine ⟨fun cc p hr => hrest'.1 cc p (hchild'.1 cc p hr), ?_⟩
          intro n' hn' p hr
          rcases List.mem_cons.1 hn' with rfl | hn'
          · exact hchild'.2 p hr
          · exact hrest'.2 n' hn' p (hchild'.1 n' p hr)

/-- The cell at `c` is the `Path` floor. -/
def PathAt (g : List (List MazeCell)) (c : Nat × Nat) : Prop :=
  getCell g c.2 c.1 = some (MazeCell.Floor FloorType.Path)

theorem pathAt_markPath {g : List (List MazeCell)} {x y : Nat}
    (hsome : (getCell g y x).isSome) :
    ∀ cc, PathAt (setCell g y x (MazeCell.Floor FloorType.Path)) cc ↔
      (PathAt g cc ∨ cc = (x, y)) := by
  intro cc
  obtain ⟨cx, cy⟩ := cc
  by_cases hc : cy = y ∧ cx = x
  · obtain ⟨rfl, rfl⟩ := hc
    unfold PathAt
    rw [getCell_setCell_self hsome]
    simp
  · unfold PathAt
    rw [getCell_setCell_ne _ _ _ _ _ _ hc]
    constructor
    · exact Or.inl
    · rintro (h1 | h1)
      · exact h1
      · obtain ⟨h2, h3⟩ : cx = x ∧ cy = y := by simpa using h1
        exact absurd ⟨h3, h2⟩ hc

/-- In the interior, each computed neighbor is `Adj`-adjacent. -/
theorem mem_neighbors_adj {x y w h : Nat} {d : Nat × Nat}
    (hw : w ≤ USIZE) (hh : h ≤ USIZE)
    (hb : ¬(x = 0 ∨ w - 1 ≤ x ∨ y = 0 ∨ h - 1 ≤ y))
    (hd : d ∈ neighbors x y) : Adj (x, y) d := by
  rw [neighbors_interior hw hh hb] at hd
  have hb' := hb
  push_neg at hb'
  obtain ⟨hx0, hxw, hy0, hyh⟩ := hb'
  simp only [List.mem_cons, List.not_mem_nil, or_false] at hd
  rcases hd with rfl | rfl | rfl | rfl
  · refine Or.inl ⟨?_, rfl⟩
    show x = x - 1 + 1
    omega
  · exact Or.inr (Or.inl ⟨rfl, rfl⟩)
  · refine Or.inr (Or.inr (Or.inl ⟨rfl, ?_⟩))
    show y = y - 1 + 1
    omega
  · exact Or.inr (Or.inr (Or.inr ⟨rfl, rfl⟩))

/-- What a `true` answer produces: an escape route (avoiding the cells
visited at entry) from the activation's cell — for a loop, from one of its
pending neighbors, with the activation's own cell marked too — and the
exact characterization of the cells now marked `Path`. -/
def slConc : Call → Maze → Prop
  | Call.solve m x y, m' =>
      ∃ p, RouteTo m.map m.width m.height (visitedP m) (x, y) p ∧
        ∀ cc, PathAt m'.map cc ↔ (PathAt m.map cc ∨ cc ∈ p)
  | Call.loop m ns x y, m' =>
      ∃ n ∈ ns, ∃ p, RouteTo m.map m.width m.height (visitedP m) n p ∧
        ∀ cc, PathAt m'.map cc ↔ (PathAt m.map cc ∨ cc ∈ p ∨ cc = (x, y))


/-- Soundness of the search: a call that answers `true` yields an escape
route (avoiding what was visited at entry) and marks exactly the cells of
that route (for a loop: of the successful neighbor's route plus the
activation's own cell) as `Path`. -/
theorem run_sound : ∀ (fuel : Nat) (c : Call) (m' : Maze),
    NEhyp c → run fuel c = some (m', Except.ok true) → slConc c m' := by
  intro fuel
  induction fuel with
  | zero =>
    intro c m' _ h
    simp [run] at h
  | succ f ih =>
    intro c m' hne h
    cases c with
    | solve m x y =>
      obtain ⟨hinv, hx, hy⟩ := hne
      show ∃ p, RouteTo m.map m.width m.height (visitedP m) (x, y) p ∧
        ∀ cc, PathAt m'.map cc ↔ (PathAt m.map cc ∨ cc ∈ p)
      rw [run] at h
      split at h
      · rename_i cell vis hcell hvis
        split at h
        · simp at h
        · rename_i hwall
          split at h
          · simp at h
          · rename_i hvfalse
            obtain ⟨v, hv⟩ : ∃ v, m.visited = some v := by
              cases hmv : m.visited with
              | none => rw [hmv] at hvis; simp [Option.bind] at hvis
              | some v => exact ⟨v, rfl⟩
            have hvisv : getCell v y x = some false := by
              have hfalse : vis = false := by
                cases vis with
                | false => rfl
                | true => exact absurd rfl hvfalse
              rw [hv] at hvis
              have hvis' : getCell v y x = some vis := hvis
              rw [hfalse] at hvis'
              exact hvis'
            have hnvp : ¬ visitedP m (x, y) := visitedP_false_at hv hvisv
            have hfloor : FloorAt m.map (x, y) := by
              cases cell with
              | Wall => exact absurd rfl hwall
              | Floor ft => exact ⟨ft, hcell⟩
            have hmkv := visitedP_markVisited hv hvisv
            split at h
            · rename_i hb
              obtain rfl : markPath (markVisited m x y) x y = m' := by
                simpa using h
              refine ⟨[(x, y)], RouteTo.boundary hnvp hfloor hb, ?_⟩
              intro cc
              have hmk := pathAt_markPath (Option.isSome_iff_exists.2 ⟨_, hcell⟩) cc
              rw [List.mem_singleton]
              exact hmk
            · rename_i hb
              have hnb : ∀ n ∈ neighbors x y, n.1 < m.width ∧ n.2 < m.height := by
                have hb' := hb
                push_neg at hb'
                obtain ⟨hx0, hxw, hy0, hyh⟩ := hb'
                rw [neighbors_interior hinv.2.2.1 hinv.2.2.2 hb]
                intro n hn
                simp only [List.mem_cons, List.not_mem_nil, or_false] at hn
                rcases hn with rfl | rfl | rfl | rfl <;>
                  exact ⟨by simp; omega, by simp; omega⟩
              have hIH := ih (Call.loop (markVisited m x y) (neighbors x y) x y) m'
                ⟨statePres_SInv hinv (statePres_markVisited m x y), hx, hy, hnb⟩ h
              have hIH' : ∃ n ∈ neighbors x y, ∃ p,
                  RouteTo m.map m.width m.height (visitedP (markVisited m x y)) n p ∧
                  ∀ cc, PathAt m'.map cc ↔
                    (PathAt m.map cc ∨ cc ∈ p ∨ cc = (x, y)) := hIH
              obtain ⟨n, hnmem, p', hroute, hch⟩ := hIH'
              have hadj : Adj (x, y) n :=
                mem_neighbors_adj hinv.2.2.1 hinv.2.2.2 hb hnmem
              refine ⟨(x, y) :: p', ?_, ?_⟩
              · refine RouteTo.step hnvp hfloor hb hadj ?_
                exact routeTo_congr (fun e => hmkv e) hroute
              · intro cc
                rw [List.mem_cons]
                constructor
                · intro hp
                  rcases (hch cc).1 hp with h1 | h1 | h1
                  · exact Or.inl h1
                  · exact Or.inr (Or.inr h1)
                  · exact Or.inr (Or.inl h1)
                · rintro (h1 | h1 | h1)
                  · exact (hch cc).2 (Or.inl h1)
                  · exact (hch cc).2 (Or.inr (Or.inr h1))
                  · exact (hch cc).2 (Or.inr (Or.inl h1))
      · simp at h
    | loop m ns x y =>
      obtain ⟨hinv, hx, hy, hns⟩ := hne
      show ∃ n ∈ ns, ∃ p, RouteTo m.map m.width m.height (visitedP m) n p ∧
        ∀ cc, PathAt m'.map cc ↔ (PathAt m.map cc ∨ cc ∈ p ∨ cc = (x, y))
      cases ns with
      | nil =>
        rw [run] at h
        simp at h
      | cons n rest =>
        obtain ⟨nx, ny⟩ := n
        have hn0 := hns (nx, ny) (List.mem_cons_self _ _)
        rw [run] at h
        split at h
        · exact absurd h (by simp)
        · simp at h
        · rename_i m1 heq
          split at h
          · rename_i cell0 hre
            obtain rfl : markPath m1 x y = m' := by simpa using h
            have hchild := ih (Call.solve m nx ny) m1 ⟨hinv, hn0.1, hn0.2⟩ heq
            have hchild' : ∃ p,
                RouteTo m.map m.width m.height (visitedP m) (nx, ny) p ∧
                ∀ cc, PathAt m1.map cc ↔ (PathAt m.map cc ∨ cc ∈ p) := hchild
            obtain ⟨p, hroute, hch⟩ := hchild'
            refine ⟨(nx, ny), List.mem_cons_self _ _, p, hroute, ?_⟩
            intro cc
            have hmk := pathAt_markPath (Option.isSome_iff_exists.2 ⟨_, hre⟩) cc
            constructor
            · intro hp
              rcases hmk.1 hp with h1 | h1
              · rcases (hch cc).1 h1 with h2 | h2
                · exact Or.inl h2
                · exact Or.inr (Or.inl h2)
              · exact Or.inr (Or.inr h1)
            · rintro (h1 | h1 | h1)
              · exact hmk.2 (Or.inl ((hch cc).2 (Or.inl h1)))
              · exact hmk.2 (Or.inl ((hch cc).2 (Or.inr h1)))
              · exact hmk.2 (Or.inr h1)
          · simp at h
        · rename_i m1 heq
          have hcomp := run_complete f (Call.solve m nx ny) m1 ⟨hinv, hn0.1, hn0.2⟩ heq
          have hm1map : m1.map = m.map := run_false_map_eq f (Call.solve m nx ny) m1 heq
          have hsp := run_statePres f (Call.solve m nx ny) m1 _ heq
          have hw1 : m1.width = m.width := hsp.width_eq
          have hh1 : m1.height = m.height := hsp.height_eq
          have hvm : ∀ e, visitedP m e → visitedP m1 e := hsp.vmono
          have hrest := ih (Call.loop m1 rest x y) m'
            ⟨statePres_SInv hinv hsp, hw1 ▸ hx, hh1 ▸ hy,
             fun n hn => ⟨hw1 ▸ (hns n (List.mem_cons_of_mem _ hn)).1,
                          hh1 ▸ (hns n (List.mem_cons_of_mem _ hn)).2⟩⟩ h
          have hrest' : ∃ n ∈ rest, ∃ p,
              RouteTo m1.map m1.width m1.height (visitedP m1) n p ∧
              ∀ cc, PathAt m'.map cc ↔
                (PathAt m1.map cc ∨ cc ∈ p ∨ cc = (x, y)) := hrest
          rw [hm1map, hw1, hh1] at hrest'
          obtain ⟨n', hn', p, hroute, hch⟩ := hrest'
          refine ⟨n', List.mem_cons_of_mem _ hn', p, ?_, hch⟩
          exact routeTo_mono hvm hroute

/-! ## Claim theorems: solve correctness (C1) and scenario C (C2) -/

theorem noPathCells_not_pathAt {g : List (List MazeCell)} (h : NoPathCells g)
    (c : Nat × Nat) : ¬ PathAt g c := by
  intro hp
  unfold PathAt getCell at hp
  cases hrow : g.get? c.2 with
  | none => rw [hrow] at hp; simp at hp
  | some row =>
    rw [hrow] at hp
    have hp' : row.get? c.1 = some (MazeCell.Floor FloorType.Path) := hp
    exact h row (get?_mem' hrow) _ (get?_mem' hp') rfl

/-- A path from the start cell to the boundary through floor cells exists
(with nothing excluded). -/
def HasEscape (m : Maze) : Prop :=
  ∃ p, RouteTo m.map m.width m.height (fun _ => False) (m.start_x, m.start_y) p

theorem visitedP_solveReady_iff (m : Maze) (e : Nat × Nat) :
    visitedP (solveReady m) e ↔ False :=
  iff_false_intro (solveReady_not_visited m e)

/-- Claim C1 counterexample: on scenario A's maze, `solve()` answers `true`
and the start cell `(1, 1)` itself ends up `Floor(Path)` — the route is
marked including the start cell, not excluding it, so the `Path`-marked
cells do not form a chain that starts only at a neighbor of start. -/
theorem claim_C1_counterexample :
    Maze.solve mazeA = some (mazeASolved, Except.ok true) ∧
    getCell mazeASolved.map mazeA.start_y mazeA.start_x =
      some (MazeCell.Floor FloorType.Path) := by
  constructor
  · rfl
  · rfl

/-- Claim C1 (amended): for every valid maze with no pre-existing `Path`
cells, `solve()` answers `true` exactly when a path from the start cell to
a boundary cell through floor cells exists; and when it answers `true` the
`Path`-marked cells are exactly one route: a duplicate-free chain of
adjacent floor cells that starts at the start cell itself (the start cell
included, which is what the counterexample forces the claim to say) and
ends at a boundary cell. -/
theorem claim_C1 (m : Maze) (hv : Valid m) (hnp : NoPathCells m.map) :
    ((∃ m', Maze.solve m = some (m', Except.ok true)) ↔ HasEscape m) ∧
    ∀ m', Maze.solve m = some (m', Except.ok true) →
      ∃ p : List (Nat × Nat),
        p.head? = some (m.start_x, m.start_y) ∧
        List.Chain' Adj p ∧ p.Nodup ∧
        (∀ c ∈ p, FloorAt m.map c) ∧
        (∃ last, p.getLast? = some last ∧ OnBoundary m.width m.height last) ∧
        (∀ c, PathAt m'.map c ↔ c ∈ p) := by
  have hne : NEhyp (Call.solve (solveReady m) m.start_x m.start_y) :=
    ⟨valid_SInv_solveReady hv, hv.2.2.2.2.2.2.1, hv.2.2.2.2.2.2.2.1⟩
  have hmain : ∀ m', Maze.solve m = some (m', Except.ok true) →
      ∃ p, RouteTo m.map m.width m.height (visitedP (solveReady m))
          (m.start_x, m.start_y) p ∧
        ∀ cc, PathAt m'.map cc ↔ (PathAt m.map cc ∨ cc ∈ p) := by
    intro m' hm'
    unfold Maze.solve at hm'
    exact run_sound _ _ _ hne hm'
  constructor
  · constructor
    · rintro ⟨m', hm'⟩
      obtain ⟨p, hroute, -⟩ := hmain m' hm'
      exact ⟨p, routeTo_congr (visitedP_solveReady_iff m) hroute⟩
    · rintro ⟨p, hroute⟩
      obtain ⟨⟨m', r⟩, hr⟩ := Option.isSome_iff_exists.1 (solve_isSome m)
      have hr' : run (6 * m.width * m.height + 1)
          (Call.solve (solveReady m) m.start_x m.start_y) = some (m', r) := hr
      obtain ⟨b, rfl⟩ := run_no_error _ _ _ _ hne hr'
      cases b with
      | true => exact ⟨m', hr⟩
      | false =>
        have hcomp := run_complete _ _ _ hne hr'
        have hdead : ∀ q, ¬ RouteTo m.map m.width m.height
            (visitedP (solveReady m)) (m.start_x, m.start_y) q := hcomp.2
        exact absurd
          (routeTo_congr (fun e => (visitedP_solveReady_iff m e).symm) hroute)
          (hdead p)
  · intro m' hm'
    obtain ⟨p, hroute, hch⟩ := hmain m' hm'
    obtain ⟨last, hlast, hob⟩ := routeTo_last hroute
    refine ⟨p, routeTo_head hroute, routeTo_chain hroute, routeTo_nodup hroute,
      routeTo_floors hroute, ⟨last, hlast, hob⟩, ?_⟩
    intro c
    rw [hch c]
    constructor
    · rintro (h1 | h1)
      · exact absurd h1 (noPathCells_not_pathAt hnp c)
      · exact h1
    · exact Or.inr

theorem claim_C1_witness : HasEscape mazeA :=
  (claim_C1 mazeA (by unfold Valid; decide) (by unfold NoPathCells; decide)).1.mp
    ⟨mazeASolved, by rfl⟩

/-- Claim C2 counterexample: for the text input `" X \nX X\n  X"` with start
`(1, 1)`, construction does succeed, but `solve()` returns `true`, not
`false`: the cell below the start, `(1, 2)`, is an open floor cell on the
boundary. -/
theorem claim_C2_counterexample :
    Maze.new_from_str (" X \nX X\n  X").toList 1 1 = Except.ok mazeA ∧
    Maze.solve mazeA = some (mazeASolved, Except.ok true) := by
  constructor
  · rfl
  · rfl

/-- Claim C2 (amended): the text input `" X \nX X\n  X"` with start `(1, 1)`
constructs successfully (a 3×3 grid with the start on floor), and `solve()`
returns `true` — the down neighbor `(1, 2)` is a floor cell on the bottom
boundary, reached after the left, right and up neighbors (all walls) fail. -/
theorem claim_C2 :
    Maze.new_from_str (" X \nX X\n  X").toList 1 1 = Except.ok mazeA ∧
    mazeA.width = 3 ∧ mazeA.height = 3 ∧
    isFloorB (getCell mazeA.map 1 1) = true ∧
    Maze.solve mazeA = some (mazeASolved, Except.ok true) :=
  ⟨rfl, rfl, rfl, rfl, rfl⟩
